import Mathlib

/-!
# Graham scan convex hull (`src/main.cpp`)

A shallow embedding of the program: `Point`, the comparator `Compare`,
`get_direction`, the pivot selection loop, the sort call and the stack scan of
`convex_hull`, followed by the verification of its contract.

The C++ `int` arithmetic is embedded over `Int`; every arithmetic result is passed
through a normalisation `w : Int → Int`.  With `w = exactInt` the arithmetic is the
exact integer arithmetic, with a wrap-around function it is machine arithmetic.
-/

namespace ConvexHull

/-! ## Data model -/

/-- The `struct Point` of the source: a pair of integer coordinates. -/
structure Point where
  x : Int
  y : Int
deriving DecidableEq, Inhabited

/-- Exact integer arithmetic: no result of an operation is changed. -/
def exactInt (z : Int) : Int := z

/-- The arithmetic of a 32-bit `int` that wraps around (two's complement). -/
def wrap32 (z : Int) : Int := (z + 2147483648) % 4294967296 - 2147483648

/-! ## The functions of the source -/

/-- The comparator `Compare::operator()` with pivot `p1`: the cross product of
`p2 - p1` and `p3 - p1` decides; when it is zero the squared distances to the
pivot decide. -/
def Compare (w : Int → Int) (p1 p2 p3 : Point) : Bool :=
  let cross_product :=
    w (w (w (p2.x - p1.x) * w (p3.y - p1.y)) - w (w (p2.y - p1.y) * w (p3.x - p1.x)))
  if cross_product = 0 then
    let dist2 :=
      w (w (w (p2.x - p1.x) * w (p2.x - p1.x)) + w (w (p2.y - p1.y) * w (p2.y - p1.y)))
    let dist3 :=
      w (w (w (p3.x - p1.x) * w (p3.x - p1.x)) + w (w (p3.y - p1.y) * w (p3.y - p1.y)))
    decide (dist2 < dist3)
  else
    decide (cross_product > 0)

/-- The function `get_direction`: positive for a counter clock-wise turn
`p1, p2, p3`, negative for a clock-wise turn, zero for collinear points. -/
def get_direction (w : Int → Int) (p1 p2 p3 : Point) : Int :=
  w (w (w (p2.x - p1.x) * w (p3.y - p1.y)) - w (w (p2.y - p1.y) * w (p3.x - p1.x)))

/-- One iteration of the pivot selection loop of `convex_hull`: the new value of
`bottom_left_index` after looking at index `i`. -/
def bottom_left_step (points : List Point) (bottom_left_index i : Nat) : Nat :=
  if (points.getD i default).y < (points.getD bottom_left_index default).y then i
  else if (points.getD i default).y = (points.getD bottom_left_index default).y ∧
      (points.getD i default).x < (points.getD bottom_left_index default).x then i
  else bottom_left_index

/-- The pivot selection loop `for (i = 0; i < n; i++)`, started with
`bottom_left_index = 0`. -/
def find_bottom_left (points : List Point) : Nat :=
  (List.range points.length).foldl (bottom_left_step points) 0

/-- The three assignments that exchange `points[bottom_left_index]` and
`points[0]`. -/
def swap_to_front (points : List Point) (bottom_left_index : Nat) : List Point :=
  let temp := points.getD bottom_left_index default
  (points.set bottom_left_index (points.getD 0 default)).set 0 temp

/-- Insertion of `a` into a range ordered by `comp`, before the first element
that `a` precedes. -/
def sort_insert (comp : Point → Point → Bool) (a : Point) : List Point → List Point
  | [] => [a]
  | b :: l => if comp a b then a :: b :: l else b :: sort_insert comp a l

/-- The library call `std::sort(first, last, comp)`, embedded as an insertion
sort: the result is a rearrangement of the range, ordered by `comp` whenever
`comp` is a strict weak ordering of the elements of the range. -/
def std_sort (comp : Point → Point → Bool) : List Point → List Point
  | [] => []
  | a :: l => sort_insert comp a (std_sort comp l)

/-- The inner `while` loop of the scan for the current point `p`: while the stack
(top first) holds more than one point and `get_direction(next_to_top, top, p) <= 0`,
the top is popped. -/
def pop_loop (w : Int → Int) (p : Point) : List Point → List Point
  | [] => []
  | top :: rest =>
    match rest with
    | [] => [top]
    | next_to_top :: _ =>
      if get_direction w next_to_top top p ≤ 0 then pop_loop w p rest else top :: rest

/-- One iteration of the scan loop: pop while the turn is not counter
clock-wise, then push `points[i]`. -/
def scan_step (w : Int → Int) (stk : List Point) (p : Point) : List Point :=
  p :: pop_loop w p stk

/-- The array as it is after the pivot swap and the sort of `points + 1 .. points + n`. -/
def sorted_points (w : Int → Int) (points : List Point) : List Point :=
  let swapped := swap_to_front points (find_bottom_left points)
  swapped.take 1 ++ std_sort (Compare w (swapped.getD 0 default)) (swapped.drop 1)

/-- The function `convex_hull`: the points it prints, in the order printed, which
is the final stack from top to bottom. -/
def convex_hull (w : Int → Int) (points : List Point) : List Point :=
  (sorted_points w points).foldl (scan_step w) []

/-- The array `points` of `main`. -/
def main_points : List Point :=
  [⟨0, 3⟩, ⟨1, 1⟩, ⟨2, 2⟩, ⟨4, 4⟩, ⟨0, 0⟩, ⟨1, 2⟩, ⟨4, 1⟩, ⟨3, 3⟩, ⟨0, 2⟩, ⟨4, 2⟩]

/-! ## Vocabulary of the verification -/

/-- The exact cross product of `b - a` and `c - a`: what `get_direction a b c`
computes in exact arithmetic. -/
def cross (a b c : Point) : Int :=
  (b.x - a.x) * (c.y - a.y) - (b.y - a.y) * (c.x - a.x)

/-- The exact squared distance between `p` and `q`. -/
def dist2 (p q : Point) : Int :=
  (q.x - p.x) * (q.x - p.x) + (q.y - p.y) * (q.y - p.y)

/-- The order of the pivot selection: `p` has the smaller `y`, or the same `y`
and an `x` that is not larger. -/
def lexLe (p q : Point) : Prop :=
  p.y < q.y ∨ (p.y = q.y ∧ p.x ≤ q.x)

instance (p q : Point) : Decidable (lexLe p q) := by
  unfold lexLe; infer_instance

/-- The order computed by `Compare` with pivot `p` in exact arithmetic. -/
def before (p a b : Point) : Prop :=
  0 < cross p a b ∨ (cross p a b = 0 ∧ dist2 p a < dist2 p b)

instance (p a b : Point) : Decidable (before p a b) := by
  unfold before; infer_instance

/-- The point `a` is `b` or comes before `b` in the order around the pivot `p`. -/
def beforeEq (p a b : Point) : Prop :=
  before p a b ∨ a = b

instance (p a b : Point) : Decidable (beforeEq p a b) := by
  unfold beforeEq; infer_instance

/-- Every three consecutive points `t, n, m` of the stack (top first) turn strictly
left in the order `m, n, t`, and `t` lies on a ray of the pivot strictly after the
ray of `n`. -/
def StrictChain (p : Point) : List Point → Prop
  | t :: n :: m :: rest =>
    0 < cross m n t ∧ 0 < cross p n t ∧ StrictChain p (n :: m :: rest)
  | _ => True

/-- The point `q` is on the left of, or on, every edge of the stack (top first; an
edge runs from the lower point to the upper one). -/
def LeftOfEdges (q : Point) (stk : List Point) : Prop :=
  List.Chain' (fun t n => 0 ≤ cross n t q) stk

/-- The invariant of the scan loop, for the pivot `p`, the points `Q` scanned so far
and the stack `stk` (top first). -/
structure ScanInv (p : Point) (Q stk : List Point) : Prop where
  bottom : stk.getLast? = some p
  mem : ∀ h ∈ stk, h = p ∨ h ∈ Q
  top : ∀ q ∈ Q, ∀ t ∈ stk.head?, beforeEq p q t
  sorted : List.Chain' (fun t n => 0 ≤ cross p n t) stk
  strict : StrictChain p stk
  left : ∀ q ∈ Q, LeftOfEdges q stk

/-- All points of the list lie on one common line `a * x + b * y = c`. -/
def OnCommonLine (pts : List Point) : Prop :=
  ∃ a b c : Int, (a ≠ 0 ∨ b ≠ 0) ∧ ∀ q ∈ pts, a * q.x + b * q.y = c

/-- The point `v` lies on the closed segment between `a` and `b`: it is collinear
with them and inside their bounding box. -/
def onSegment (a b v : Point) : Prop :=
  cross a b v = 0 ∧ (v.x - a.x) * (v.x - b.x) ≤ 0 ∧ (v.y - a.y) * (v.y - b.y) ≤ 0

instance (a b v : Point) : Decidable (onSegment a b v) := by
  unfold onSegment; infer_instance

/-- The point `v` lies strictly inside the triangle `a, b, c` (given in either
orientation). -/
def insideTriangle (a b c v : Point) : Prop :=
  (0 < cross a b v ∧ 0 < cross b c v ∧ 0 < cross c a v) ∨
    (cross a b v < 0 ∧ cross b c v < 0 ∧ cross c a v < 0)

instance (a b c v : Point) : Decidable (insideTriangle a b c v) := by
  unfold insideTriangle; infer_instance

/-- Every three consecutive points of the stack (top first), taken from bottom to top
as `a, b, c`, have `get_direction(a, b, c) > 0` in the arithmetic `w`. -/
def TurnsLeft (w : Int → Int) : List Point → Prop
  | c :: b :: a :: rest => 0 < get_direction w a b c ∧ TurnsLeft w (b :: a :: rest)
  | _ => True

/-- The value fits a signed 32-bit `int`. -/
def fits32 (z : Int) : Prop := -2147483648 ≤ z ∧ z ≤ 2147483647

instance (z : Int) : Decidable (fits32 z) := by
  unfold fits32; infer_instance

/-- The exact values of all the sub-expressions that `get_direction(p1, p2, p3)`
computes: the four coordinate differences, the two products and the cross product. -/
def direction_values (p1 p2 p3 : Point) : List Int :=
  [p2.x - p1.x, p3.y - p1.y, (p2.x - p1.x) * (p3.y - p1.y),
   p2.y - p1.y, p3.x - p1.x, (p2.y - p1.y) * (p3.x - p1.x),
   (p2.x - p1.x) * (p3.y - p1.y) - (p2.y - p1.y) * (p3.x - p1.x)]

/-- The exact values of all the sub-expressions that `Compare(p1)(p2, p3)` computes: those
of the cross product and those of the two squared distances. -/
def compare_values (p1 p2 p3 : Point) : List Int :=
  direction_values p1 p2 p3 ++
  [(p2.x - p1.x) * (p2.x - p1.x), (p2.y - p1.y) * (p2.y - p1.y),
   (p2.x - p1.x) * (p2.x - p1.x) + (p2.y - p1.y) * (p2.y - p1.y),
   (p3.x - p1.x) * (p3.x - p1.x), (p3.y - p1.y) * (p3.y - p1.y),
   (p3.x - p1.x) * (p3.x - p1.x) + (p3.y - p1.y) * (p3.y - p1.y)]

/-- An input with a coordinate whose square does not fit 32 bits. -/
def overflow_points : List Point := [⟨0, 0⟩, ⟨1, 0⟩, ⟨46341, 0⟩, ⟨0, 1⟩]

/-! ## The stack operations and the run with checked accesses -/

/-- The call `stk.top()`: not defined on an empty stack. -/
def stack_top (stk : List Point) : Option Point :=
  match stk with
  | [] => none
  | top :: _ => some top

/-- The call `stk.pop()`: not defined on an empty stack. -/
def stack_pop (stk : List Point) : Option (List Point) :=
  match stk with
  | [] => none
  | _ :: rest => some rest

/-- The call `stk.push(p)`. -/
def stack_push (stk : List Point) (p : Point) : List Point := p :: stk

/-- The function `get_next_to_top`: it reads the top, pops it, reads the new top and
pushes the old top back.  The result is the point read second and the stack after the
call; there is no result when a `top()` or `pop()` meets an empty stack. -/
def get_next_to_top (local_stack : List Point) : Option (Point × List Point) :=
  match stack_top local_stack with
  | none => none
  | some top =>
    match stack_pop local_stack with
    | none => none
    | some popped =>
      match stack_top popped with
      | none => none
      | some next_to_top => some (next_to_top, stack_push popped top)

/-- The inner `while` loop of the scan with every stack operation checked, run for at most
`fuel` evaluations of its condition: no result when an operation meets an empty stack or
the fuel runs out. -/
def pop_loop_checked (w : Int → Int) (p : Point) : Nat → List Point → Option (List Point)
  | 0, _ => none
  | fuel + 1, stk =>
    if stk.length > 1 then
      match get_next_to_top stk with
      | none => none
      | some (next_to_top, stk1) =>
        match stack_top stk1 with
        | none => none
        | some top =>
          if get_direction w next_to_top top p ≤ 0 then
            match stack_pop stk1 with
            | none => none
            | some stk2 => pop_loop_checked w p fuel stk2
          else some stk1
    else some stk

/-- One iteration of the pivot selection loop with the accesses `points[i]` and
`points[bottom_left_index]` checked against the bounds of the array. -/
def bottom_left_step_checked (points : List Point) (acc : Option Nat) (i : Nat) :
    Option Nat :=
  match acc with
  | none => none
  | some bottom_left_index =>
    match points[i]?, points[bottom_left_index]? with
    | some pi, some pb =>
      some (if pi.y < pb.y then i
        else if pi.y = pb.y ∧ pi.x < pb.x then i else bottom_left_index)
    | _, _ => none

/-- The pivot selection loop with checked accesses. -/
def find_bottom_left_checked (points : List Point) : Option Nat :=
  (List.range points.length).foldl (bottom_left_step_checked points) (some 0)

/-- The swap of `points[bottom_left_index]` and `points[0]` with checked accesses. -/
def swap_checked (points : List Point) (bottom_left_index : Nat) : Option (List Point) :=
  match points[bottom_left_index]?, points[0]? with
  | some temp, some first => some ((points.set bottom_left_index first).set 0 temp)
  | _, _ => none

/-- One iteration `i` of the scan loop with the access `points[i]` and the stack operations
checked; the inner loop gets one unit of fuel more than the stack holds points. -/
def scan_step_checked (w : Int → Int) (points : List Point) (acc : Option (List Point))
    (i : Nat) : Option (List Point) :=
  match acc with
  | none => none
  | some stk =>
    match points[i]? with
    | none => none
    | some p =>
      match pop_loop_checked w p (stk.length + 1) stk with
      | none => none
      | some stk1 => some (stack_push stk1 p)

/-- The scan loop `for (i = 0; i < n; i++)` with checked accesses, started with the empty
stack. -/
def scan_checked (w : Int → Int) (points : List Point) : Option (List Point) :=
  (List.range points.length).foldl (scan_step_checked w points) (some [])

/-- The print loop: while the stack is not empty, print its top and pop it. -/
def print_loop : List Point → List Point
  | [] => []
  | top :: rest => top :: print_loop rest

/-- The function `convex_hull` with every array access and stack operation checked: the
printed points, or no result when an access is out of bounds or a stack operation meets an
empty stack. -/
def convex_hull_checked (w : Int → Int) (points : List Point) : Option (List Point) :=
  match find_bottom_left_checked points with
  | none => none
  | some bottom_left_index =>
    match swap_checked points bottom_left_index with
    | none => none
    | some swapped =>
      match swapped[0]? with
      | none => none
      | some pivot =>
        match scan_checked w
            (swapped.take 1 ++ std_sort (Compare w pivot) (swapped.drop 1)) with
        | none => none
        | some stk => some (print_loop stk)

/-! ## The scan as the specification words it -/

/-- Modelled on the words of the specification, step 3: while the stack holds more than one
point and the turn of second-from-top, top, current point has direction `≤ 0`, pop the top
of the stack. -/
def spec_pop_while (w : Int → Int) (current : Point) : List Point → List Point
  | top :: second :: rest =>
    if get_direction w second top current ≤ 0 then spec_pop_while w current (second :: rest)
    else top :: second :: rest
  | stk => stk

/-- Modelled on the words of the specification, step 3: push the pivot, then the first
sorted point; for each subsequent point pop as above, then push it.  Not defined for fewer
than two points. -/
def spec_scan (w : Int → Int) (points : List Point) : Option (List Point) :=
  match points with
  | pivot :: first :: others =>
    some (others.foldl (fun stk current => current :: spec_pop_while w current stk)
      [first, pivot])
  | _ => none

/-! ## Exact arithmetic -/

theorem get_direction_exact (a b c : Point) : get_direction exactInt a b c = cross a b c := rfl

theorem compare_exact (p a b : Point) : Compare exactInt p a b = true ↔ before p a b := by
  unfold Compare before cross dist2 exactInt
  by_cases h : (a.x - p.x) * (b.y - p.y) - (a.y - p.y) * (b.x - p.x) = 0
  · simp [h]
  · simp [h]

/-! ## Arithmetic of vectors in the half plane above the pivot -/

/-- Two parallel vectors of the half plane `y > 0 ∨ (y = 0 ∧ x ≥ 0)` have a scalar product
that is not negative. -/
theorem raw_dot_nonneg (a b c d : Int) (hu : 0 < b ∨ (b = 0 ∧ 0 ≤ a))
    (hv : 0 < d ∨ (d = 0 ∧ 0 ≤ c)) (h : a * d - b * c = 0) : 0 ≤ a * c + b * d := by
  rcases hu with hb | ⟨hb, ha⟩ <;> rcases hv with hd | ⟨hd, hc⟩
  · have h1 : 0 < b * d := mul_pos hb hd
    have h2 : (a * c) * (b * d) = (a * d) * (a * d) := by linear_combination (-a*d) * h
    have h3 : 0 ≤ (a * c) * (b * d) := by rw [h2]; exact mul_self_nonneg _
    have h4 : 0 ≤ a * c := by
      by_contra hneg
      push_neg at hneg
      have := mul_neg_of_neg_of_pos hneg h1
      omega
    omega
  · subst hd
    have h1 : b * c = 0 := by linarith
    have h2 : c = 0 := by
      rcases mul_eq_zero.mp h1 with h0 | h0
      · omega
      · exact h0
    subst h2; simp
  · subst hb
    have h1 : a * d = 0 := by linarith
    have h2 : a = 0 := by
      rcases mul_eq_zero.mp h1 with h0 | h0
      · exact h0
      · omega
    subst h2; simp
  · subst hb; subst hd
    have := mul_nonneg ha hc
    simpa using this

theorem raw_norm_nonneg (c d : Int) : 0 ≤ c * c + d * d := by
  nlinarith [mul_self_nonneg c, mul_self_nonneg d]

theorem raw_norm_eq_zero (c d : Int) (h : c * c + d * d = 0) : c = 0 ∧ d = 0 := by
  have h1 := mul_self_nonneg c
  have h2 := mul_self_nonneg d
  constructor
  · exact mul_self_eq_zero.mp (by omega)
  · exact mul_self_eq_zero.mp (by omega)

/-- The scalar product of two parallel vectors of the half plane is at most the square of
the longer one. -/
theorem raw_dot_le (a b c d : Int) (hu : 0 < b ∨ (b = 0 ∧ 0 ≤ a))
    (hv : 0 < d ∨ (d = 0 ∧ 0 ≤ c)) (h : a * d - b * c = 0)
    (hd : a * a + b * b ≤ c * c + d * d) : a * c + b * d ≤ c * c + d * d := by
  have h0 := raw_dot_nonneg a b c d hu hv h
  have h1 : (a * c + b * d) * (a * c + b * d) = (a * a + b * b) * (c * c + d * d) := by
    linear_combination (-(a * d - b * c)) * h
  have h2 : 0 ≤ c * c + d * d := raw_norm_nonneg c d
  by_contra hneg
  push_neg at hneg
  have h3 : (c * c + d * d) * (c * c + d * d) < (a * c + b * d) * (a * c + b * d) := by
    nlinarith
  have h4 : (a * a + b * b) * (c * c + d * d) ≤ (c * c + d * d) * (c * c + d * d) :=
    mul_le_mul_of_nonneg_right hd h2
  linarith

/-- The scalar product of two parallel vectors of the half plane is positive when
neither is zero. -/
theorem raw_dot_pos (a b c d : Int) (hu : 0 < b ∨ (b = 0 ∧ 0 ≤ a))
    (hv : 0 < d ∨ (d = 0 ∧ 0 ≤ c)) (h : a * d - b * c = 0)
    (hu0 : 0 < a * a + b * b) (hv0 : 0 < c * c + d * d) : 0 < a * c + b * d := by
  have h0 := raw_dot_nonneg a b c d hu hv h
  have h1 : (a * c + b * d) * (a * c + b * d) = (a * a + b * b) * (c * c + d * d) := by
    linear_combination (-(a * d - b * c)) * h
  have h2 := mul_pos hu0 hv0
  rcases eq_or_lt_of_le h0 with h3 | h3
  · rw [← h3] at h1; simp at h1; omega
  · exact h3

/-- A vector with a non-zero cross product is not zero. -/
theorem raw_norm_pos_of_cross (a b c d : Int) (h : a * d - b * c ≠ 0) :
    0 < a * a + b * b ∧ 0 < c * c + d * d := by
  constructor
  · rcases eq_or_lt_of_le (raw_norm_nonneg a b) with h0 | h0
    · obtain ⟨ha, hb⟩ := raw_norm_eq_zero a b h0.symm
      subst ha; subst hb; simp at h
    · exact h0
  · rcases eq_or_lt_of_le (raw_norm_nonneg c d) with h0 | h0
    · obtain ⟨hc, hd⟩ := raw_norm_eq_zero c d h0.symm
      subst hc; subst hd; simp at h
    · exact h0

/-- Angles grow transitively through a middle vector that is not zero. -/
theorem raw_cross_trans (a b c d e f : Int) (hu : 0 < b ∨ (b = 0 ∧ 0 ≤ a))
    (hv : 0 < d ∨ (d = 0 ∧ 0 ≤ c)) (hw : 0 < f ∨ (f = 0 ∧ 0 ≤ e))
    (h1 : 0 ≤ a * d - b * c) (h2 : 0 ≤ c * f - d * e) (hv0 : 0 < c * c + d * d) :
    0 ≤ a * f - b * e := by
  have hb : 0 ≤ b := by omega
  have hf : 0 ≤ f := by omega
  have key : d * (a * f - b * e) = b * (c * f - d * e) + f * (a * d - b * c) := by ring
  have hr : 0 ≤ d * (a * f - b * e) := by
    rw [key]; exact add_nonneg (mul_nonneg hb h2) (mul_nonneg hf h1)
  rcases hv with hd | ⟨hd, hc⟩
  · by_contra hneg
    push_neg at hneg
    have := mul_neg_of_pos_of_neg hd hneg
    omega
  · subst hd
    have hc0 : 0 < c := by
      rcases eq_or_lt_of_le hc with h0 | h0
      · subst h0; simp at hv0
      · exact h0
    have hb0 : b = 0 := by
      have h3 : b * c ≤ 0 := by linarith
      by_contra hne
      have hbpos : 0 < b := by omega
      have := mul_pos hbpos hc0
      omega
    subst hb0
    have ha : 0 ≤ a := by omega
    have := mul_nonneg ha hf
    simpa using this

/-- Strictly growing angles compose. -/
theorem raw_cross_strict_trans (a b c d e f : Int) (hu : 0 < b ∨ (b = 0 ∧ 0 ≤ a))
    (hv : 0 < d ∨ (d = 0 ∧ 0 ≤ c)) (hw : 0 < f ∨ (f = 0 ∧ 0 ≤ e))
    (h1 : 0 < a * d - b * c) (h2 : 0 < c * f - d * e) :
    0 < a * f - b * e := by
  have hb : 0 ≤ b := by omega
  have hd : 0 ≤ d := by omega
  have hf : 0 < f := by
    rcases hw with hf | ⟨hf, he⟩
    · exact hf
    · subst hf
      have := mul_nonneg hd he
      simp at h2
      omega
  have key : d * (a * f - b * e) = b * (c * f - d * e) + f * (a * d - b * c) := by ring
  have hr : 0 < d * (a * f - b * e) := by
    rw [key]
    have h3 := mul_nonneg hb (le_of_lt h2)
    have h4 := mul_pos hf h1
    omega
  by_contra hneg
  push_neg at hneg
  have := mul_nonpos_of_nonneg_of_nonpos hd hneg
  omega

/-- The identity behind all scaling arguments. -/
theorem raw_scale_id (a b c d e f : Int) (h : a * d - b * c = 0) :
    (c * c + d * d) * (a * f - b * e) = (a * c + b * d) * (c * f - d * e) := by
  linear_combination (c * e + d * f) * h

/-- A shorter parallel vector has the smaller cross product with a vector to the left. -/
theorem raw_scale_le (a b c d e f : Int) (hu : 0 < b ∨ (b = 0 ∧ 0 ≤ a))
    (hv : 0 < d ∨ (d = 0 ∧ 0 ≤ c)) (h : a * d - b * c = 0)
    (hd : a * a + b * b ≤ c * c + d * d) (ht : 0 ≤ c * f - d * e) :
    a * f - b * e ≤ c * f - d * e := by
  rcases eq_or_lt_of_le (raw_norm_nonneg c d) with h0 | h0
  · obtain ⟨hc, hd0⟩ := raw_norm_eq_zero c d h0.symm
    subst hc; subst hd0
    have h1 : a * a + b * b = 0 := le_antisymm (by simpa using hd) (raw_norm_nonneg a b)
    obtain ⟨ha, hb⟩ := raw_norm_eq_zero a b h1
    subst ha; subst hb; simp
  · have h1 := raw_scale_id a b c d e f h
    have h2 := raw_dot_le a b c d hu hv h hd
    have h3 : (a * c + b * d) * (c * f - d * e) ≤ (c * c + d * d) * (c * f - d * e) :=
      mul_le_mul_of_nonneg_right h2 ht
    rw [← h1] at h3
    exact le_of_mul_le_mul_left h3 h0

/-- A longer parallel vector has the larger cross product with a vector to the right. -/
theorem raw_scale_ge (a b c d e f : Int) (hu : 0 < b ∨ (b = 0 ∧ 0 ≤ a))
    (hv : 0 < d ∨ (d = 0 ∧ 0 ≤ c)) (h : a * d - b * c = 0)
    (hd : a * a + b * b ≤ c * c + d * d) (ht : 0 < e * b - f * a) :
    e * b - f * a ≤ e * d - f * c := by
  have hne : a * f - b * e ≠ 0 := by
    intro h0
    have : e * b - f * a = -(a * f - b * e) := by ring
    omega
  have hpos := (raw_norm_pos_of_cross a b e f hne).1
  have hcd : 0 < c * c + d * d := lt_of_lt_of_le hpos hd
  have h1 := raw_scale_id a b c d e f h
  have h1n : (c * c + d * d) * (e * b - f * a) = (a * c + b * d) * (e * d - f * c) := by
    linear_combination (-1 : Int) * h1
  have h2 := raw_dot_le a b c d hu hv h hd
  have h0 := raw_dot_nonneg a b c d hu hv h
  have hl : 0 < (c * c + d * d) * (e * b - f * a) := mul_pos hcd ht
  rw [h1n] at hl
  have h5 : 0 ≤ e * d - f * c := by
    by_contra hneg
    push_neg at hneg
    have := mul_nonpos_of_nonneg_of_nonpos h0 (le_of_lt hneg)
    omega
  have h6 : (a * c + b * d) * (e * d - f * c) ≤ (c * c + d * d) * (e * d - f * c) :=
    mul_le_mul_of_nonneg_right h2 h5
  rw [← h1n] at h6
  exact le_of_mul_le_mul_left h6 hcd

/-- Parallel vectors of the half plane with the same length are equal. -/
theorem raw_eq_of_parallel (a b c d : Int) (hu : 0 < b ∨ (b = 0 ∧ 0 ≤ a))
    (hv : 0 < d ∨ (d = 0 ∧ 0 ≤ c)) (h : a * d - b * c = 0)
    (hd : a * a + b * b = c * c + d * d) : a = c ∧ b = d := by
  have h0 := raw_dot_nonneg a b c d hu hv h
  have h1 : (a * c + b * d) * (a * c + b * d) = (c * c + d * d) * (c * c + d * d) := by
    linear_combination (-(a * d - b * c)) * h + (c * c + d * d) * hd
  have h2 : a * c + b * d = c * c + d * d :=
    (mul_self_inj h0 (raw_norm_nonneg c d)).mp h1
  have h3 : (a - c) * (a - c) + (b - d) * (b - d) = 0 := by
    linear_combination hd - 2 * h2
  obtain ⟨h4, h5⟩ := raw_norm_eq_zero _ _ h3
  constructor <;> omega

/-- Transitivity of the comparator order on the half plane. -/
theorem raw_before_trans (a b c d e f : Int) (hu : 0 < b ∨ (b = 0 ∧ 0 ≤ a))
    (hv : 0 < d ∨ (d = 0 ∧ 0 ≤ c)) (hw : 0 < f ∨ (f = 0 ∧ 0 ≤ e))
    (h1 : 0 < a * d - b * c ∨ (a * d - b * c = 0 ∧ a * a + b * b < c * c + d * d))
    (h2 : 0 < c * f - d * e ∨ (c * f - d * e = 0 ∧ c * c + d * d < e * e + f * f)) :
    0 < a * f - b * e ∨ (a * f - b * e = 0 ∧ a * a + b * b < e * e + f * f) := by
  rcases h1 with h1 | ⟨h1, d1⟩ <;> rcases h2 with h2 | ⟨h2, d2⟩
  · exact Or.inl (raw_cross_strict_trans a b c d e f hu hv hw h1 h2)
  · left
    have hvpos := (raw_norm_pos_of_cross a b c d (by omega)).2
    have hwpos : 0 < e * e + f * f := by omega
    have hdot := raw_dot_pos c d e f hv hw h2 hvpos hwpos
    have key : (c * c + d * d) * (a * f - b * e) = (c * e + d * f) * (a * d - b * c) := by
      linear_combination (a * c + b * d) * h2
    have hr : 0 < (c * c + d * d) * (a * f - b * e) := by
      rw [key]; exact mul_pos hdot h1
    by_contra hneg
    push_neg at hneg
    have := mul_nonpos_of_nonneg_of_nonpos (le_of_lt hvpos) hneg
    omega
  · have hvpos := (raw_norm_pos_of_cross c d e f (by omega)).1
    have hwpos := (raw_norm_pos_of_cross c d e f (by omega)).2
    rcases eq_or_lt_of_le (raw_norm_nonneg a b) with h0 | h0
    · obtain ⟨ha, hb⟩ := raw_norm_eq_zero a b h0.symm
      subst ha; subst hb
      right
      constructor
      · simp
      · simpa using hwpos
    · left
      have hdot := raw_dot_pos a b c d hu hv h1 h0 hvpos
      have key := raw_scale_id a b c d e f h1
      have hr : 0 < (c * c + d * d) * (a * f - b * e) := by
        rw [key]; exact mul_pos hdot h2
      by_contra hneg
      push_neg at hneg
      have := mul_nonpos_of_nonneg_of_nonpos (le_of_lt hvpos) hneg
      omega
  · right
    have hvpos : 0 < c * c + d * d := lt_of_le_of_lt (raw_norm_nonneg a b) d1
    constructor
    · have k1 : (a * f - b * e) * c = 0 := by linear_combination a * h2 + e * h1
      have k2 : (a * f - b * e) * d = 0 := by linear_combination f * h1 + b * h2
      have k3 : (a * f - b * e) * (c * c + d * d) = 0 := by
        linear_combination c * k1 + d * k2
      rcases mul_eq_zero.mp k3 with k | k
      · exact k
      · omega
    · omega

/-! ## Cross products, distances and the order around the pivot -/

theorem lexLe_raw {p q : Point} (h : lexLe p q) :
    0 < q.y - p.y ∨ (q.y - p.y = 0 ∧ 0 ≤ q.x - p.x) := by
  unfold lexLe at h; omega

theorem lexLe_refl (p : Point) : lexLe p p := Or.inr ⟨rfl, le_refl _⟩

theorem point_ext {p q : Point} (hx : p.x = q.x) (hy : p.y = q.y) : p = q := by
  cases p; cases q; simp_all

theorem cross_self_left (p a : Point) : cross p p a = 0 := by unfold cross; ring

theorem cross_self_right (p a : Point) : cross p a a = 0 := by unfold cross; ring

theorem cross_self_mid (p a : Point) : cross p a p = 0 := by unfold cross; ring

theorem cross_swap (p a b : Point) : cross p b a = -cross p a b := by unfold cross; ring

theorem cross_rot (a b c : Point) : cross b c a = cross a b c := by unfold cross; ring

theorem cross_sum (p a b c : Point) :
    cross a b c = cross p a b + cross p b c - cross p a c := by unfold cross; ring

theorem dist2_self (p : Point) : dist2 p p = 0 := by unfold dist2; ring

theorem dist2_nonneg (p q : Point) : 0 ≤ dist2 p q := raw_norm_nonneg _ _

theorem dist2_eq_zero {p q : Point} (h : dist2 p q = 0) : q = p := by
  obtain ⟨h1, h2⟩ := raw_norm_eq_zero _ _ h
  exact point_ext (by omega) (by omega)

theorem dist2_pos {p q : Point} (h : q ≠ p) : 0 < dist2 p q := by
  rcases eq_or_lt_of_le (dist2_nonneg p q) with h0 | h0
  · exact absurd (dist2_eq_zero h0.symm) h
  · exact h0

theorem before_irrefl (p a : Point) : ¬ before p a a := by
  unfold before
  rw [cross_self_right]
  omega

theorem before_asymm {p a b : Point} (h1 : before p a b) (h2 : before p b a) : False := by
  unfold before at h1 h2
  rw [cross_swap p a b] at h2
  omega

theorem before_trans {p a b c : Point} (ha : lexLe p a) (hb : lexLe p b) (hc : lexLe p c)
    (h1 : before p a b) (h2 : before p b c) : before p a c :=
  raw_before_trans _ _ _ _ _ _ (lexLe_raw ha) (lexLe_raw hb) (lexLe_raw hc) h1 h2

theorem before_total {p a b : Point} (ha : lexLe p a) (hb : lexLe p b) :
    before p a b ∨ a = b ∨ before p b a := by
  rcases lt_trichotomy (cross p a b) 0 with h | h | h
  · right; right; left
    rw [cross_swap p a b]; omega
  · rcases lt_trichotomy (dist2 p a) (dist2 p b) with hd | hd | hd
    · exact Or.inl (Or.inr ⟨h, hd⟩)
    · right; left
      obtain ⟨h1, h2⟩ := raw_eq_of_parallel _ _ _ _ (lexLe_raw ha) (lexLe_raw hb) h hd
      exact point_ext (by omega) (by omega)
    · right; right; right
      refine ⟨?_, hd⟩
      rw [cross_swap p a b]; omega
  · exact Or.inl (Or.inl h)

theorem before_pivot {p a : Point} (h : a ≠ p) : before p p a := by
  right
  exact ⟨cross_self_left p a, by rw [dist2_self]; exact dist2_pos h⟩

theorem not_before_pivot (p a : Point) : ¬ before p a p := by
  unfold before
  rw [cross_self_mid, dist2_self]
  have := dist2_nonneg p a
  omega

theorem beforeEq_refl (p a : Point) : beforeEq p a a := Or.inr rfl

theorem beforeEq_cross {p a b : Point} (h : beforeEq p a b) : 0 ≤ cross p a b := by
  rcases h with h | h
  · rcases h with h | ⟨h, _⟩ <;> omega
  · subst h; rw [cross_self_right]

theorem beforeEq_dist {p a b : Point} (h : beforeEq p a b) (hc : cross p a b = 0) :
    dist2 p a ≤ dist2 p b := by
  rcases h with h | h
  · rcases h with h | ⟨_, h⟩ <;> omega
  · subst h; exact le_refl _

theorem beforeEq_trans {p a b c : Point} (ha : lexLe p a) (hb : lexLe p b) (hc : lexLe p c)
    (h1 : beforeEq p a b) (h2 : beforeEq p b c) : beforeEq p a c := by
  rcases h1 with h1 | h1
  · rcases h2 with h2 | h2
    · exact Or.inl (before_trans ha hb hc h1 h2)
    · subst h2; exact Or.inl h1
  · subst h1; exact h2

theorem beforeEq_total {p a b : Point} (ha : lexLe p a) (hb : lexLe p b) :
    beforeEq p a b ∨ before p b a := by
  rcases before_total ha hb with h | h | h
  · exact Or.inl (Or.inl h)
  · exact Or.inl (Or.inr h)
  · exact Or.inr h

theorem beforeEq_antisymm {p a b : Point} (h1 : beforeEq p a b) (h2 : beforeEq p b a) :
    a = b := by
  rcases h1 with h1 | h1
  · rcases h2 with h2 | h2
    · exact absurd h2 (fun h => before_asymm h1 h)
    · exact h2.symm
  · exact h1

theorem beforeEq_pivot {p a : Point} (h : beforeEq p a p) : a = p := by
  rcases h with h | h
  · exact absurd h (not_before_pivot p a)
  · exact h

theorem pivot_beforeEq (p a : Point) : beforeEq p p a := by
  by_cases h : a = p
  · exact Or.inr h.symm
  · exact Or.inl (before_pivot h)

/-- Scaling towards the pivot: a nearer point on the ray of `t` has the smaller cross
product with every point to the left of that ray. -/
theorem scale_le {p q t a : Point} (hq : lexLe p q) (ht : lexLe p t)
    (h : cross p q t = 0) (hd : dist2 p q ≤ dist2 p t) (hta : 0 ≤ cross p t a) :
    cross p q a ≤ cross p t a :=
  raw_scale_le _ _ _ _ _ _ (lexLe_raw hq) (lexLe_raw ht) h hd hta

/-- Scaling away from the pivot: a farther point on the ray of `t` has the larger cross
product with every point strictly to the right of that ray. -/
theorem scale_ge {p t a n : Point} (ht : lexLe p t) (ha : lexLe p a)
    (h : cross p t a = 0) (hd : dist2 p t ≤ dist2 p a) (hn : 0 < cross p n t) :
    cross p n t ≤ cross p n a :=
  raw_scale_ge _ _ _ _ _ _ (lexLe_raw ht) (lexLe_raw ha) h hd hn

theorem cross_trans_mid {p a t q : Point} (ha : lexLe p a) (ht : lexLe p t) (hq : lexLe p q)
    (h1 : 0 ≤ cross p a t) (h2 : 0 ≤ cross p t q) (hne : t ≠ p) : 0 ≤ cross p a q :=
  raw_cross_trans _ _ _ _ _ _ (lexLe_raw ha) (lexLe_raw ht) (lexLe_raw hq) h1 h2
    (dist2_pos hne)

theorem cross_strict_trans {p a t q : Point} (ha : lexLe p a) (ht : lexLe p t)
    (hq : lexLe p q) (h1 : 0 < cross p a t) (h2 : 0 < cross p t q) : 0 < cross p a q :=
  raw_cross_strict_trans _ _ _ _ _ _ (lexLe_raw ha) (lexLe_raw ht) (lexLe_raw hq) h1 h2

/-! ## The three steps of the scan argument (identities between cross products) -/

/-- After popping `t` (the turn `n, t, a` is not to the left), every point `q` that was to
the left of the edge `n → t` and is not before `n` is to the left of `n → a`. -/
theorem cone_step {p n t a q : Point} (hnt : 0 < cross p n t) (hpop : cross n t a ≤ 0)
    (hnq : 0 ≤ cross p n q) (hna : 0 ≤ cross p n a) (hq : 0 ≤ cross n t q) :
    0 ≤ cross n a q := by
  have key : cross n a q * cross p n t =
      (-cross n t a) * cross p n q + cross p n a * cross n t q := by
    unfold cross; ring
  have h1 : 0 ≤ (-cross n t a) * cross p n q := mul_nonneg (by omega) hnq
  have h2 : 0 ≤ cross p n a * cross n t q := mul_nonneg hna hq
  by_contra hneg
  push_neg at hneg
  have := mul_neg_of_neg_of_pos hneg hnt
  omega

/-- When `a` is pushed on `t` with a left turn `n, t, a`, every point `q` to the left of
`n → t` that is not after `t` is to the left of the new edge `t → a`. -/
theorem upward_step {p n t a q : Point} (hnt : 0 < cross p n t) (hturn : 0 ≤ cross n t a)
    (hq : 0 ≤ cross n t q) (hqt : 0 ≤ cross p q t) (hta : 0 ≤ cross p t a) :
    0 ≤ cross t a q := by
  have key : cross t a q * cross p n t =
      cross n t a * cross p q t + cross p t a * cross n t q := by
    unfold cross; ring
  have h1 : 0 ≤ cross n t a * cross p q t := mul_nonneg hturn hqt
  have h2 : 0 ≤ cross p t a * cross n t q := mul_nonneg hta hq
  by_contra hneg
  push_neg at hneg
  have := mul_neg_of_neg_of_pos hneg hnt
  omega

/-- A point `a` to the left of the edge `n → t` and not before `n` is to the left of the
edge `m → n` below it, when the chain turns left at `n`. -/
theorem chain_step {p m n t a : Point} (hnt : 0 < cross p n t) (hturn : 0 < cross m n t)
    (hta : 0 ≤ cross n t a) (hna : 0 ≤ cross p n a) (hmn : 0 ≤ cross p m n) :
    0 ≤ cross m n a := by
  have key : cross m n a * cross p n t =
      cross m n t * cross p n a + cross n t a * cross p m n := by
    unfold cross; ring
  have h1 : 0 ≤ cross m n t * cross p n a := mul_nonneg (le_of_lt hturn) hna
  have h2 : 0 ≤ cross n t a * cross p m n := mul_nonneg hta hmn
  by_contra hneg
  push_neg at hneg
  have := mul_neg_of_neg_of_pos hneg hnt
  omega

/-! ## The sort: a rearrangement, ordered when the comparator is the exact one -/

theorem sort_insert_perm (comp : Point → Point → Bool) (a : Point) (l : List Point) :
    (sort_insert comp a l).Perm (a :: l) := by
  induction l with
  | nil => exact List.Perm.refl _
  | cons b l ih =>
    unfold sort_insert
    split
    · exact List.Perm.refl _
    · exact (List.Perm.cons b ih).trans (List.Perm.swap a b l)

theorem std_sort_perm (comp : Point → Point → Bool) (l : List Point) :
    (std_sort comp l).Perm l := by
  induction l with
  | nil => exact List.Perm.refl _
  | cons a l ih =>
    unfold std_sort
    exact (sort_insert_perm comp a _).trans (List.Perm.cons a ih)

theorem sort_insert_sorted (p a : Point) (l : List Point) (ha : lexLe p a)
    (hl : ∀ b ∈ l, lexLe p b) (hs : l.Pairwise (beforeEq p)) :
    (sort_insert (Compare exactInt p) a l).Pairwise (beforeEq p) := by
  induction l with
  | nil => simp [sort_insert]
  | cons b l ih =>
    have hb : lexLe p b := hl b (List.mem_cons_self _ _)
    have hl2 : ∀ c ∈ l, lexLe p c := fun c hc => hl c (List.mem_cons_of_mem _ hc)
    obtain ⟨hbl, hs2⟩ := List.pairwise_cons.mp hs
    unfold sort_insert
    split
    · rename_i hcmp
      have hab : before p a b := (compare_exact p a b).mp hcmp
      refine List.pairwise_cons.mpr ⟨?_, hs⟩
      intro c hc
      rcases List.mem_cons.mp hc with hc | hc
      · subst hc; exact Or.inl hab
      · exact beforeEq_trans ha hb (hl2 c hc) (Or.inl hab) (hbl c hc)
    · rename_i hcmp
      have hab : ¬ before p a b := fun h => hcmp ((compare_exact p a b).mpr h)
      have hba : beforeEq p b a := by
        rcases beforeEq_total hb ha with h | h
        · exact h
        · exact absurd h hab
      refine List.pairwise_cons.mpr ⟨?_, ih hl2 hs2⟩
      intro c hc
      have hc2 : c ∈ a :: l := (sort_insert_perm _ a l).subset hc
      rcases List.mem_cons.mp hc2 with hc3 | hc3
      · subst hc3; exact hba
      · exact hbl c hc3

theorem std_sort_sorted (p : Point) (l : List Point) (hl : ∀ b ∈ l, lexLe p b) :
    (std_sort (Compare exactInt p) l).Pairwise (beforeEq p) := by
  induction l with
  | nil => simp [std_sort]
  | cons a l ih =>
    unfold std_sort
    have hl2 : ∀ c ∈ l, lexLe p c := fun c hc => hl c (List.mem_cons_of_mem _ hc)
    refine sort_insert_sorted p a _ (hl a (List.mem_cons_self _ _)) ?_ (ih hl2)
    intro b hb
    exact hl2 b ((std_sort_perm _ l).subset hb)

/-- Two rearrangements of one another that are both ordered around the pivot are equal. -/
theorem sorted_unique (p : Point) {l1 l2 : List Point} (hp : l1.Perm l2)
    (h1 : l1.Pairwise (beforeEq p)) (h2 : l2.Pairwise (beforeEq p)) : l1 = l2 := by
  haveI : IsAntisymm Point (beforeEq p) := ⟨fun _ _ h h2 => beforeEq_antisymm h h2⟩
  exact List.eq_of_perm_of_sorted hp h1 h2

/-- The result of the sort does not depend on the sorting algorithm: every rearrangement
of the range in which no element compares before an earlier one is the list that `std_sort`
returns. -/
theorem std_sort_any (p : Point) (rest l : List Point) (hlex : ∀ q ∈ rest, lexLe p q)
    (hperm : l.Perm rest) (hsorted : l.Pairwise (fun a b => Compare exactInt p b a = false)) :
    l = std_sort (Compare exactInt p) rest := by
  have h1 : l.Pairwise (beforeEq p) := by
    refine List.Pairwise.imp_of_mem ?_ hsorted
    intro a b ha hb hab
    rcases beforeEq_total (hlex a (hperm.subset ha)) (hlex b (hperm.subset hb)) with h | h
    · exact h
    · rw [(compare_exact p b a).mpr h] at hab
      exact absurd hab (by decide)
  exact sorted_unique p (hperm.trans (std_sort_perm _ rest).symm) h1
    (std_sort_sorted p rest hlex)

/-! ## Pivot selection and the swap -/

theorem lexLe_trans {a b c : Point} (h1 : lexLe a b) (h2 : lexLe b c) : lexLe a c := by
  unfold lexLe at *; omega

theorem lexLe_antisymm {a b : Point} (h1 : lexLe a b) (h2 : lexLe b a) : a = b := by
  unfold lexLe at *
  exact point_ext (by omega) (by omega)

theorem bottom_left_fold (pts : List Point) (k : Nat) :
    ((List.range k).foldl (bottom_left_step pts) 0 = 0 ∨
      (List.range k).foldl (bottom_left_step pts) 0 < k) ∧
    ∀ i, i < k → lexLe (pts.getD ((List.range k).foldl (bottom_left_step pts) 0) default)
      (pts.getD i default) := by
  induction k with
  | zero => simp
  | succ k ih =>
    rw [List.range_succ, List.foldl_append]
    simp only [List.foldl_cons, List.foldl_nil]
    generalize (List.range k).foldl (bottom_left_step pts) 0 = b at ih
    obtain ⟨hb, hmin⟩ := ih
    unfold bottom_left_step
    split
    · rename_i h1
      refine ⟨Or.inr (Nat.lt_succ_self k), ?_⟩
      intro i hi
      rcases Nat.lt_succ_iff_lt_or_eq.mp hi with h | h
      · have := hmin i h
        unfold lexLe at *; omega
      · subst h; exact lexLe_refl _
    · split
      · rename_i h1 h2
        refine ⟨Or.inr (Nat.lt_succ_self k), ?_⟩
        intro i hi
        rcases Nat.lt_succ_iff_lt_or_eq.mp hi with h | h
        · have := hmin i h
          unfold lexLe at *; omega
        · subst h; exact lexLe_refl _
      · rename_i h1 h2
        refine ⟨?_, ?_⟩
        · rcases hb with hb | hb
          · exact Or.inl hb
          · exact Or.inr (Nat.lt_succ_of_lt hb)
        · intro i hi
          rcases Nat.lt_succ_iff_lt_or_eq.mp hi with h | h
          · exact hmin i h
          · subst h
            unfold lexLe; omega

theorem find_bottom_left_lt (pts : List Point) (h : pts ≠ []) :
    find_bottom_left pts < pts.length := by
  have hpos : 0 < pts.length := List.length_pos.mpr h
  unfold find_bottom_left
  rcases (bottom_left_fold pts pts.length).1 with h0 | h0
  · rw [h0]; exact hpos
  · exact h0

theorem find_bottom_left_min (pts : List Point) (q : Point) (hq : q ∈ pts) :
    lexLe (pts.getD (find_bottom_left pts) default) q := by
  obtain ⟨i, hi, rfl⟩ := List.mem_iff_getElem.mp hq
  have := (bottom_left_fold pts pts.length).2 i hi
  rw [List.getD_eq_getElem pts default hi] at this
  exact this

theorem find_bottom_left_mem (pts : List Point) (h : pts ≠ []) :
    pts.getD (find_bottom_left pts) default ∈ pts := by
  rw [List.getD_eq_getElem pts default (find_bottom_left_lt pts h)]
  exact List.getElem_mem _

theorem set_perm (tl : List Point) (j : Nat) (x : Point) (hj : j < tl.length) :
    (tl.getD j default :: tl.set j x).Perm (x :: tl) := by
  induction tl generalizing j with
  | nil => simp at hj
  | cons h t ih =>
    cases j with
    | zero => simpa using List.Perm.swap x h t
    | succ j =>
      have hj2 : j < t.length := by simpa using hj
      have h1 := ih j hj2
      simp only [List.getD_cons_succ, List.set_cons_succ]
      exact (List.Perm.swap h (t.getD j default) (t.set j x)).trans
        ((List.Perm.cons h h1).trans (List.Perm.swap x h t))

theorem swap_to_front_eq (pts : List Point) (j : Nat) (hj : j < pts.length) :
    ∃ rest, swap_to_front pts j = pts.getD j default :: rest ∧
      (pts.getD j default :: rest).Perm pts := by
  cases pts with
  | nil => simp at hj
  | cons p0 tl =>
    cases j with
    | zero => exact ⟨tl, by simp [swap_to_front], List.Perm.refl _⟩
    | succ j =>
      have hj2 : j < tl.length := by simpa using hj
      exact ⟨tl.set j p0, by simp [swap_to_front], by simpa using set_perm tl j p0 hj2⟩

/-- The array after the swap and the sort: the pivot, then the sorted other points. -/
theorem sorted_points_eq (w : Int → Int) (pts : List Point) (h : pts ≠ []) :
    ∃ p rest, sorted_points w pts = p :: std_sort (Compare w p) rest ∧
      (p :: rest).Perm pts ∧ (∀ q ∈ pts, lexLe p q) ∧
      p = pts.getD (find_bottom_left pts) default := by
  obtain ⟨rest, h1, h2⟩ := swap_to_front_eq pts _ (find_bottom_left_lt pts h)
  refine ⟨pts.getD (find_bottom_left pts) default, rest, ?_, h2,
    fun q hq => find_bottom_left_min pts q hq, rfl⟩
  unfold sorted_points
  simp [h1]

/-! ## The scan: facts that hold for every arithmetic -/

theorem pop_loop_nil (w : Int → Int) (a : Point) : pop_loop w a [] = [] := rfl

theorem pop_loop_single (w : Int → Int) (a t : Point) : pop_loop w a [t] = [t] := rfl

theorem pop_loop_cons_cons (w : Int → Int) (a t n : Point) (rest : List Point) :
    pop_loop w a (t :: n :: rest) =
      if get_direction w n t a ≤ 0 then pop_loop w a (n :: rest) else t :: n :: rest := rfl

theorem pop_loop_suffix (w : Int → Int) (a : Point) (S : List Point) :
    pop_loop w a S <:+ S := by
  induction S with
  | nil => exact List.suffix_refl _
  | cons t S ih =>
    cases S with
    | nil => exact List.suffix_refl _
    | cons n rest =>
      rw [pop_loop_cons_cons]
      split
      · exact ih.trans (List.suffix_cons t _)
      · exact List.suffix_refl _

theorem pop_loop_ne_nil (w : Int → Int) (a : Point) (S : List Point) (h : S ≠ []) :
    pop_loop w a S ≠ [] := by
  induction S with
  | nil => exact absurd rfl h
  | cons t S ih =>
    cases S with
    | nil => simp [pop_loop_single]
    | cons n rest =>
      rw [pop_loop_cons_cons]
      split
      · exact ih (List.cons_ne_nil _ _)
      · exact List.cons_ne_nil _ _

theorem pop_loop_getLast (w : Int → Int) (a : Point) (S : List Point) :
    (pop_loop w a S).getLast? = S.getLast? := by
  induction S with
  | nil => rfl
  | cons t S ih =>
    cases S with
    | nil => rfl
    | cons n rest =>
      rw [pop_loop_cons_cons]
      split
      · rw [ih]; simp [List.getLast?_cons_cons]
      · rfl

theorem pop_loop_exit (w : Int → Int) (a : Point) (S : List Point) (t n : Point)
    (rest : List Point) (h : pop_loop w a S = t :: n :: rest) :
    0 < get_direction w n t a := by
  induction S with
  | nil => simp [pop_loop_nil] at h
  | cons t0 S ih =>
    cases S with
    | nil => simp [pop_loop_single] at h
    | cons n0 r =>
      rw [pop_loop_cons_cons] at h
      split at h
      · exact ih h
      · rename_i hdir
        simp only [List.cons.injEq] at h
        obtain ⟨h1, h2, _⟩ := h
        subst h1; subst h2
        omega

/-! ## The scan invariant in exact arithmetic -/

theorem strictChain_tail {p t : Point} {S : List Point} (h : StrictChain p (t :: S)) :
    StrictChain p S := by
  match S, h with
  | [], _ => trivial
  | [_], _ => trivial
  | _ :: _ :: _, h => exact h.2.2

theorem strictChain_suffix {p : Point} {R S : List Point} (hs : R <:+ S)
    (h : StrictChain p S) : StrictChain p R := by
  obtain ⟨pre, rfl⟩ := hs
  induction pre with
  | nil => exact h
  | cons x pre ih => exact ih (strictChain_tail h)

theorem getLast_of_suffix {p : Point} {R S : List Point} (hs : R <:+ S) (hne : R ≠ [])
    (h : S.getLast? = some p) : R.getLast? = some p := by
  obtain ⟨pre, rfl⟩ := hs
  rw [List.getLast?_append_of_ne_nil _ hne] at h
  exact h

theorem stack_lexLe {p h : Point} {Q : List Point} (hQ : ∀ q ∈ Q, lexLe p q)
    (hm : h = p ∨ h ∈ Q) : lexLe p h := by
  rcases hm with hm | hm
  · subst hm; exact lexLe_refl _
  · exact hQ h hm

theorem stack_beforeEq {p h a : Point} {Q : List Point} (haQ : ∀ q ∈ Q, beforeEq p q a)
    (hm : h = p ∨ h ∈ Q) : beforeEq p h a := by
  rcases hm with hm | hm
  · subst hm; exact pivot_beforeEq _ a
  · exact haQ h hm

/-- The inner loop keeps: every scanned point is not after the top of the stack, or is on
the left of the edge from the top to the current point `a`. -/
theorem pop_loop_cover (p a : Point) (Q : List Point) (ha : lexLe p a)
    (hQ : ∀ q ∈ Q, lexLe p q) (haQ : ∀ q ∈ Q, beforeEq p q a) (S : List Point)
    (hbot : S.getLast? = some p) (hmem : ∀ h ∈ S, h = p ∨ h ∈ Q)
    (hstrict : StrictChain p S) (hleft : ∀ q ∈ Q, LeftOfEdges q S)
    (hcov : ∀ q ∈ Q, ∀ t ∈ S.head?, beforeEq p q t ∨ 0 ≤ cross t a q) :
    ∀ q ∈ Q, ∀ t ∈ (pop_loop exactInt a S).head?, beforeEq p q t ∨ 0 ≤ cross t a q := by
  induction S with
  | nil => simp at hbot
  | cons t S ih =>
    cases S with
    | nil => simpa [pop_loop_single] using hcov
    | cons n rest =>
      rw [pop_loop_cons_cons]
      split
      · rename_i hpop
        rw [get_direction_exact] at hpop
        have hn : n = p ∨ n ∈ Q := hmem n (by simp)
        have ht : t = p ∨ t ∈ Q := hmem t (by simp)
        apply ih
        · simpa [List.getLast?_cons_cons] using hbot
        · intro h hh; exact hmem h (List.mem_cons_of_mem _ hh)
        · exact strictChain_tail hstrict
        · intro q hq; exact (hleft q hq).tail
        · intro q hq t2 ht2
          simp only [List.head?_cons, Option.mem_def, Option.some.injEq] at ht2
          subst ht2
          have hqe : 0 ≤ cross n t q := by
            have := hleft q hq
            unfold LeftOfEdges at this
            exact (List.chain'_cons.mp this).1
          have hna : 0 ≤ cross p n a := beforeEq_cross (stack_beforeEq haQ hn)
          rcases beforeEq_total (hQ q hq) (stack_lexLe hQ hn) with hqn | hqn
          · exact Or.inl hqn
          · right
            have hnq : 0 ≤ cross p n q := beforeEq_cross (Or.inl hqn)
            cases rest with
            | nil =>
              have hnp : n = p := by simpa using hbot
              subst hnp
              have hta : 0 ≤ cross n t a := beforeEq_cross (stack_beforeEq haQ ht)
              have hta0 : cross n t a = 0 := by omega
              by_cases htp : t = n
              · subst htp
                rcases hcov q hq t (by simp) with h | h
                · exact absurd hqn (fun h2 => before_asymm h2 (by
                    rcases h with h | h
                    · exact absurd h (not_before_pivot _ _)
                    · subst h; exact absurd hqn (before_irrefl _ _)))
                · exact h
              · have h1 : 0 ≤ cross n a t := by rw [cross_swap]; omega
                exact cross_trans_mid ha (stack_lexLe hQ ht) (hQ q hq) h1 hqe htp
            | cons m rest2 =>
              exact cone_step hstrict.2.1 hpop hnq hna hqe
      · exact hcov

/-- A point that is not before any point of the stack and on the left of its top edge is on
the left of all its edges. -/
theorem left_of_chain (p a : Point) (S : List Point) (hstrict : StrictChain p S)
    (hsorted : List.Chain' (fun t n => 0 ≤ cross p n t) S)
    (hall : ∀ h ∈ S, 0 ≤ cross p h a)
    (htop : ∀ t n rest, S = t :: n :: rest → 0 ≤ cross n t a) : LeftOfEdges a S := by
  induction S with
  | nil => exact List.chain'_nil
  | cons t S ih =>
    cases S with
    | nil => exact List.chain'_singleton _
    | cons n rest =>
      have hta : 0 ≤ cross n t a := htop t n rest rfl
      refine List.chain'_cons.mpr ⟨hta, ?_⟩
      apply ih (strictChain_tail hstrict) hsorted.tail
      · intro h hh; exact hall h (List.mem_cons_of_mem _ hh)
      · intro t2 n2 rest2 heq
        simp only [List.cons.injEq] at heq
        obtain ⟨h1, h2⟩ := heq
        subst h1; subst h2
        have hmn : 0 ≤ cross p n2 n := (List.chain'_cons.mp hsorted.tail).1
        exact chain_step hstrict.2.1 hstrict.1 hta (hall n (by simp)) hmn

/-- One iteration of the scan loop keeps the invariant. -/
theorem scan_step_inv (p a : Point) (Q S : List Point) (ha : lexLe p a)
    (hQ : ∀ q ∈ Q, lexLe p q) (haQ : ∀ q ∈ Q, beforeEq p q a) (inv : ScanInv p Q S) :
    ScanInv p (a :: Q) (scan_step exactInt S a) := by
  have hSne : S ≠ [] := by
    intro h; have := inv.bottom; rw [h] at this; simp at this
  have hsuf := pop_loop_suffix exactInt a S
  have hne := pop_loop_ne_nil exactInt a S hSne
  have hexit := pop_loop_exit exactInt a S
  have hcover := pop_loop_cover p a Q ha hQ haQ S inv.bottom inv.mem inv.strict inv.left
    (fun q hq t ht => Or.inl (inv.top q hq t ht))
  unfold scan_step
  generalize pop_loop exactInt a S = R at hsuf hne hexit hcover
  cases R with
  | nil => exact absurd rfl hne
  | cons t R =>
    have hbotR : (t :: R).getLast? = some p := getLast_of_suffix hsuf hne inv.bottom
    have hmemR : ∀ h ∈ t :: R, h = p ∨ h ∈ Q := fun h hh => inv.mem h (hsuf.subset hh)
    have hsortedR : List.Chain' (fun t n => 0 ≤ cross p n t) (t :: R) :=
      inv.sorted.suffix hsuf
    have hstrictR : StrictChain p (t :: R) := strictChain_suffix hsuf inv.strict
    have hleftR : ∀ q ∈ Q, LeftOfEdges q (t :: R) := fun q hq =>
      List.Chain'.suffix (inv.left q hq) hsuf
    have ht : t = p ∨ t ∈ Q := hmemR t (by simp)
    have hta : 0 ≤ cross p t a := beforeEq_cross (stack_beforeEq haQ ht)
    have hallR : ∀ h ∈ t :: R, 0 ≤ cross p h a := fun h hh =>
      beforeEq_cross (stack_beforeEq haQ (hmemR h hh))
    refine ⟨?_, ?_, ?_, ?_, ?_, ?_⟩
    · simpa [List.getLast?_cons_cons] using hbotR
    · intro h hh
      rcases List.mem_cons.mp hh with h1 | h1
      · exact Or.inr (by rw [h1]; exact List.mem_cons_self _ _)
      · rcases hmemR h h1 with h2 | h2
        · exact Or.inl h2
        · exact Or.inr (List.mem_cons_of_mem _ h2)
    · intro q hq t2 ht2
      simp only [List.head?_cons, Option.mem_def, Option.some.injEq] at ht2
      subst ht2
      rcases List.mem_cons.mp hq with h1 | h1
      · rw [h1]; exact beforeEq_refl _ _
      · exact haQ q h1
    · exact List.chain'_cons.mpr ⟨hta, hsortedR⟩
    · cases R with
      | nil => trivial
      | cons n R2 =>
        have hturn : 0 < cross n t a := by
          have := hexit t n R2 rfl
          rwa [get_direction_exact] at this
        refine ⟨hturn, ?_, hstrictR⟩
        rcases eq_or_lt_of_le hta with h0 | h0
        · exfalso
          have hn : n = p ∨ n ∈ Q := hmemR n (by simp)
          have hnt : 0 ≤ cross p n t := (List.chain'_cons.mp hsortedR).1
          have hna : 0 ≤ cross p n a := beforeEq_cross (stack_beforeEq haQ hn)
          have hsum := cross_sum p n t a
          rcases eq_or_lt_of_le hnt with h1 | h1
          · omega
          · have hd : dist2 p t ≤ dist2 p a :=
              beforeEq_dist (stack_beforeEq haQ ht) h0.symm
            have := scale_ge (stack_lexLe hQ ht) ha h0.symm hd h1
            omega
        · exact h0
    · intro q hq
      refine List.chain'_cons.mpr ⟨?_, ?_⟩
      · rcases List.mem_cons.mp hq with h1 | h1
        · rw [h1, cross_self_right]
        · rcases hcover q h1 t (by simp) with hqt | hqt
          · cases R with
            | nil =>
              have htp : t = p := by simpa using hbotR
              subst htp
              have := beforeEq_pivot hqt
              subst this
              rw [cross_self_mid]
            | cons n R2 =>
              have hturn : 0 < cross n t a := by
                have := hexit t n R2 rfl
                rwa [get_direction_exact] at this
              have hq1 : 0 ≤ cross n t q := (List.chain'_cons.mp (hleftR q h1)).1
              have hqt2 : 0 ≤ cross p q t := beforeEq_cross hqt
              cases R2 with
              | nil =>
                have hnp : n = p := by simpa using hbotR
                subst hnp
                have h0 : cross n q t = 0 := by
                  have := cross_swap n q t
                  omega
                have hd := beforeEq_dist hqt h0
                have hs := scale_le (hQ q h1) (stack_lexLe hQ ht) h0 hd hta
                have hsum := cross_sum n t a q
                have hsw := cross_swap n q a
                have hsw2 := cross_swap n q t
                omega
              | cons m R3 =>
                exact upward_step hstrictR.2.1 (le_of_lt hturn) hq1 hqt2 hta
          · exact hqt
      · rcases List.mem_cons.mp hq with h1 | h1
        · rw [h1]
          apply left_of_chain p a (t :: R) hstrictR hsortedR hallR
          intro t2 n2 rest2 heq
          have := hexit t2 n2 rest2 heq
          rw [get_direction_exact] at this
          omega
        · exact hleftR q h1

/-- The invariant holds for the stack that holds the pivot only. -/
theorem scan_inv_init (p : Point) : ScanInv p [] [p] :=
  ⟨rfl, fun h hh => Or.inl (by simpa using hh), fun q hq => by simp at hq,
    List.chain'_singleton _, trivial, fun q hq => by simp at hq⟩

/-- The invariant after the scan of a sorted list `s` of points above the pivot. -/
theorem scan_inv_fold (p : Point) (s : List Point) :
    ∀ (Q S : List Point), ScanInv p Q S → (∀ q ∈ Q, lexLe p q) → (∀ q ∈ s, lexLe p q) →
      (∀ q ∈ Q, ∀ a ∈ s, beforeEq p q a) → s.Pairwise (beforeEq p) →
      ScanInv p (s.reverse ++ Q) (s.foldl (scan_step exactInt) S) := by
  induction s with
  | nil => intro Q S inv _ _ _ _; simpa using inv
  | cons a s ih =>
    intro Q S inv hQ hs hQs hpw
    obtain ⟨has, hpw2⟩ := List.pairwise_cons.mp hpw
    have ha : lexLe p a := hs a (List.mem_cons_self _ _)
    have step := scan_step_inv p a Q S ha hQ (fun q hq => hQs q hq a (List.mem_cons_self _ _))
      inv
    have := ih (a :: Q) (scan_step exactInt S a) step
      (by
        intro q hq
        rcases List.mem_cons.mp hq with h | h
        · rw [h]; exact ha
        · exact hQ q h)
      (fun q hq => hs q (List.mem_cons_of_mem _ hq))
      (by
        intro q hq b hb
        rcases List.mem_cons.mp hq with h | h
        · rw [h]; exact has b hb
        · exact hQs q h b (List.mem_cons_of_mem _ hb))
      hpw2
    simpa [List.reverse_cons, List.append_assoc] using this

/-! ## The result of `convex_hull` -/

theorem scan_step_nil (w : Int → Int) (p : Point) : scan_step w [] p = [p] := rfl

theorem convex_hull_eq (w : Int → Int) (pts : List Point) (h : pts ≠ []) :
    ∃ p rest, convex_hull w pts = (std_sort (Compare w p) rest).foldl (scan_step w) [p] ∧
      (p :: rest).Perm pts ∧ (∀ q ∈ pts, lexLe p q) ∧
      p = pts.getD (find_bottom_left pts) default := by
  obtain ⟨p, rest, h1, h2, h3, h4⟩ := sorted_points_eq w pts h
  refine ⟨p, rest, ?_, h2, h3, h4⟩
  unfold convex_hull
  rw [h1]
  rfl

/-- The scan invariant holds for the printed stack, with all input points scanned. -/
theorem hull_inv (pts : List Point) (h : pts ≠ []) :
    ∃ p Q, (p :: Q).Perm pts ∧ (∀ q ∈ pts, lexLe p q) ∧
      ScanInv p Q (convex_hull exactInt pts) := by
  obtain ⟨p, rest, h1, h2, h3, _⟩ := convex_hull_eq exactInt pts h
  have hrest : ∀ q ∈ rest, lexLe p q := fun q hq =>
    h3 q (h2.subset (List.mem_cons_of_mem _ hq))
  have hsp := std_sort_perm (Compare exactInt p) rest
  have hs : ∀ q ∈ std_sort (Compare exactInt p) rest, lexLe p q := fun q hq =>
    hrest q (hsp.subset hq)
  have inv := scan_inv_fold p (std_sort (Compare exactInt p) rest) [] [p] (scan_inv_init p)
    (fun q hq => by simp at hq) hs (fun q hq => by simp at hq) (std_sort_sorted p rest hrest)
  rw [← h1, List.append_nil] at inv
  refine ⟨p, _, ?_, h3, inv⟩
  exact (List.Perm.cons p ((List.reverse_perm _).trans hsp)).trans h2

theorem inv_ne_nil {p : Point} {Q e : List Point} (inv : ScanInv p Q e) : e ≠ [] := by
  intro h; have := inv.bottom; rw [h] at this; simp at this

/-- All input points, the pivot included, are on the left of every edge of the stack. -/
theorem inv_left_all {p : Point} {Q e : List Point} (inv : ScanInv p Q e) (q : Point)
    (hq : q = p ∨ q ∈ Q) : LeftOfEdges q e := by
  rcases hq with hq | hq
  · subst hq
    exact List.Chain'.imp (fun t n h => by rw [cross_rot]; exact h) inv.sorted
  · exact inv.left q hq

/-- All input points are on the left of the closing edge from the top to the pivot. -/
theorem inv_closing {p : Point} {Q e : List Point} (inv : ScanInv p Q e) (q : Point)
    (hq : q = p ∨ q ∈ Q) (t : Point) (ht : t ∈ e.head?) : 0 ≤ cross t p q := by
  rcases hq with hq | hq
  · subst hq; rw [cross_self_right]
  · have := beforeEq_cross (inv.top q hq t ht)
    rw [cross_rot] at this
    exact this

/-! ### Index forms -/

theorem getD_last_of_getLast {p : Point} {e : List Point} (h : e.getLast? = some p) :
    e.getD (e.length - 1) default = p := by
  rw [List.getLast?_eq_getElem?] at h
  simp [h]

theorem getD_zero_of_head {e : List Point} (hne : e ≠ []) :
    e.getD 0 default ∈ e.head? := by
  cases e with
  | nil => exact absurd rfl hne
  | cons t e => simp

theorem getD_mem {e : List Point} {i : Nat} (hi : i < e.length) :
    e.getD i default ∈ e := by
  rw [List.getD_eq_getElem e default hi]
  exact List.getElem_mem _

theorem reverse_getD (e : List Point) (i : Nat) (hi : i < e.length) :
    e.reverse.getD i default = e.getD (e.length - 1 - i) default := by
  rw [List.getD_eq_getElem _ default (by simpa using hi),
    List.getD_eq_getElem _ default (by omega), List.getElem_reverse]

theorem chain_getD {R : Point → Point → Prop} {e : List Point} (h : List.Chain' R e)
    (i : Nat) (hi : i + 1 < e.length) : R (e.getD i default) (e.getD (i + 1) default) := by
  have := List.chain'_iff_get.mp h i (by omega)
  rw [List.getD_eq_getElem _ default (by omega), List.getD_eq_getElem _ default hi]
  simpa using this

theorem strict_getD {p : Point} {e : List Point} (h : StrictChain p e) (i : Nat)
    (hi : i + 2 < e.length) :
    0 < cross (e.getD (i + 2) default) (e.getD (i + 1) default) (e.getD i default) ∧
      0 < cross p (e.getD (i + 1) default) (e.getD i default) := by
  induction e generalizing i with
  | nil => simp at hi
  | cons t e ih =>
    match e, h, hi, ih with
    | [], _, hi, _ => simp at hi
    | [_], _, hi, _ => simp at hi
    | n :: m :: rest, h, hi, ih =>
      cases i with
      | zero => exact ⟨h.1, h.2.1⟩
      | succ i =>
        have := ih h.2.2 i (by simpa using hi)
        simpa using this

/-- Every point of the stack that is neither the top nor the pivot at the bottom lies on a
ray strictly before the ray of the top. -/
theorem ray_getD {p : Point} {e : List Point} (h : StrictChain p e)
    (hl : ∀ q ∈ e, lexLe p q) (i : Nat) (h1 : 1 ≤ i) (hi : i + 1 < e.length) :
    0 < cross p (e.getD i default) (e.getD 0 default) := by
  induction i with
  | zero => omega
  | succ i ih =>
    rcases Nat.eq_zero_or_pos i with h0 | h0
    · subst h0
      exact (strict_getD h 0 (by omega)).2
    · have h2 := ih h0 (by omega)
      have h3 := (strict_getD h i (by omega)).2
      exact cross_strict_trans (hl _ (getD_mem (by omega))) (hl _ (getD_mem (by omega)))
        (hl _ (getD_mem (by omega))) h3 h2

/-! ## Collinear inputs -/

/-- Three points of one line have a zero cross product. -/
theorem cross_zero_of_line {A B C : Int} (hAB : A ≠ 0 ∨ B ≠ 0) {a b c : Point}
    (ha : A * a.x + B * a.y = C) (hb : A * b.x + B * b.y = C) (hc : A * c.x + B * c.y = C) :
    cross a b c = 0 := by
  have h1 : A * cross a b c = 0 := by
    unfold cross
    linear_combination (c.y - a.y) * (hb - ha) - (b.y - a.y) * (hc - ha)
  have h2 : B * cross a b c = 0 := by
    unfold cross
    linear_combination (b.x - a.x) * (hc - ha) - (c.x - a.x) * (hb - ha)
  rcases hAB with h | h
  · rcases mul_eq_zero.mp h1 with h3 | h3
    · exact absurd h3 h
    · exact h3
  · rcases mul_eq_zero.mp h2 with h3 | h3
    · exact absurd h3 h
    · exact h3

/-- The points that are collinear with two different points lie on one line. -/
theorem line_of_cross {p t : Point} (hne : t ≠ p) (pts : List Point)
    (h : ∀ q ∈ pts, cross p t q = 0) : OnCommonLine pts := by
  refine ⟨-(t.y - p.y), t.x - p.x, -(t.y - p.y) * p.x + (t.x - p.x) * p.y, ?_, ?_⟩
  · by_contra hcon
    push_neg at hcon
    exact hne (point_ext (by omega) (by omega))
  · intro q hq
    have := h q hq
    unfold cross at this
    linear_combination this

/-- Copies of one point lie on one line. -/
theorem line_of_const (p : Point) (pts : List Point) (h : ∀ q ∈ pts, q = p) :
    OnCommonLine pts := by
  refine ⟨1, 0, p.x, Or.inl one_ne_zero, ?_⟩
  intro q hq
  rw [h q hq]; ring

/-- A list lies on one line exactly when every three of its points are collinear. -/
theorem onCommonLine_iff (pts : List Point) :
    OnCommonLine pts ↔ ∀ a ∈ pts, ∀ b ∈ pts, ∀ c ∈ pts, cross a b c = 0 := by
  constructor
  · rintro ⟨A, B, C, hAB, h⟩ a ha b hb c hc
    exact cross_zero_of_line hAB (h a ha) (h b hb) (h c hc)
  · intro h
    by_cases hex : ∃ a ∈ pts, ∃ b ∈ pts, b ≠ a
    · obtain ⟨a, ha, b, hb, hne⟩ := hex
      exact line_of_cross hne pts (fun q hq => h a ha b hb q hq)
    · push_neg at hex
      cases pts with
      | nil => exact ⟨1, 0, 0, Or.inl one_ne_zero, fun q hq => by simp at hq⟩
      | cons p0 tl =>
        exact line_of_const p0 _ (fun q hq => hex p0 (List.mem_cons_self _ _) q hq)

theorem onCommonLine_of_subset {l1 l2 : List Point} (hsub : ∀ q ∈ l1, q ∈ l2)
    (h : OnCommonLine l2) : OnCommonLine l1 := by
  obtain ⟨A, B, C, hAB, h⟩ := h
  exact ⟨A, B, C, hAB, fun q hq => h q (hsub q hq)⟩

/-- A final stack of at most two points means that the input lies on one line. -/
theorem short_hull_line {p : Point} {Q e : List Point} (inv : ScanInv p Q e)
    (hlen : e.length ≤ 2) : OnCommonLine (p :: Q) := by
  have hconst : (∀ q ∈ Q, q = p) → OnCommonLine (p :: Q) := fun h =>
    line_of_const p _ (fun q hq => by
      rcases List.mem_cons.mp hq with h1 | h1
      · exact h1
      · exact h q h1)
  match e, inv, hlen with
  | [], inv, _ => exact absurd rfl (inv_ne_nil inv)
  | [t], inv, _ =>
    have htp : t = p := by simpa using inv.bottom
    subst htp
    exact hconst (fun q hq => beforeEq_pivot (inv.top q hq t (by simp)))
  | [t, n], inv, _ =>
    have hnp : n = p := by simpa using inv.bottom
    subst hnp
    by_cases htp : t = n
    · subst htp
      exact hconst (fun q hq => beforeEq_pivot (inv.top q hq t (by simp)))
    · apply line_of_cross htp
      intro q hq
      rcases List.mem_cons.mp hq with h1 | h1
      · rw [h1, cross_self_mid]
      · have h2 : 0 ≤ cross n t q := (List.chain'_cons.mp (inv.left q h1)).1
        have h3 := beforeEq_cross (inv.top q h1 t (by simp))
        have h4 := cross_swap n t q
        omega
  | _ :: _ :: _ :: _, _, hlen => simp at hlen

/-! ## Containment -/

/-- Every input point is on the left of, or on, every edge of the hull polygon, the closing
edge from the top of the stack back to the pivot included. -/
theorem hull_contains (pts : List Point) (q : Point) (hq : q ∈ pts) (i : Nat)
    (hi : i < (convex_hull exactInt pts).reverse.length) :
    0 ≤ cross ((convex_hull exactInt pts).reverse.getD i default)
      ((convex_hull exactInt pts).reverse.getD
        ((i + 1) % (convex_hull exactInt pts).reverse.length) default) q := by
  have hne : pts ≠ [] := List.ne_nil_of_mem hq
  obtain ⟨p, Q, hperm, _, inv⟩ := hull_inv pts hne
  have hqQ : q = p ∨ q ∈ Q := List.mem_cons.mp (hperm.symm.subset hq)
  generalize convex_hull exactInt pts = e at inv hi
  rw [List.length_reverse] at hi ⊢
  rcases Nat.lt_or_ge (i + 1) e.length with h1 | h1
  · rw [Nat.mod_eq_of_lt h1, reverse_getD e i hi, reverse_getD e (i + 1) h1]
    have := chain_getD (inv_left_all inv q hqQ) (e.length - 1 - (i + 1)) (by omega)
    have heq : e.length - 1 - (i + 1) + 1 = e.length - 1 - i := by omega
    rw [heq] at this
    exact this
  · have h2 : i + 1 = e.length := by omega
    rw [h2, Nat.mod_self, reverse_getD e i hi, reverse_getD e 0 (by omega)]
    have h3 : e.length - 1 - i = 0 := by omega
    rw [h3, Nat.sub_zero, getD_last_of_getLast inv.bottom]
    exact inv_closing inv q hqQ _ (getD_zero_of_head (inv_ne_nil inv))

/-! ## Convexity -/

theorem cross_rev (a b c : Point) : cross a b c = -cross c b a := by unfold cross; ring

theorem cross_flip (a b c : Point) : cross a b c = -cross b a c := by unfold cross; ring

/-- With an input that does not lie on one line the final stack holds at least three
points. -/
theorem hull_length {p : Point} {Q e pts : List Point} (inv : ScanInv p Q e)
    (hperm : (p :: Q).Perm pts) (hline : ¬ OnCommonLine pts) : 3 ≤ e.length := by
  by_contra hlen
  exact hline (onCommonLine_of_subset (fun q hq => hperm.symm.subset hq)
    (short_hull_line inv (by omega)))

/-- The printed sequence is a strictly convex polygon in clock-wise order: the statement on
the cross products. -/
theorem hull_convex (pts : List Point) (hline : ¬ OnCommonLine pts) :
    3 ≤ (convex_hull exactInt pts).length ∧
    ∀ i, i < (convex_hull exactInt pts).length →
      cross ((convex_hull exactInt pts).getD i default)
        ((convex_hull exactInt pts).getD ((i + 1) % (convex_hull exactInt pts).length) default)
        ((convex_hull exactInt pts).getD ((i + 2) % (convex_hull exactInt pts).length) default)
        < 0 := by
  have hne : pts ≠ [] := by
    intro h
    exact hline ⟨1, 0, 0, Or.inl one_ne_zero, fun q hq => by rw [h] at hq; simp at hq⟩
  obtain ⟨p, Q, hperm, hlex, inv⟩ := hull_inv pts hne
  have hlen := hull_length inv hperm hline
  have hel : ∀ q ∈ convex_hull exactInt pts, lexLe p q := fun q hq =>
    stack_lexLe (fun q hq => hlex q (hperm.subset (List.mem_cons_of_mem _ hq))) (inv.mem q hq)
  generalize convex_hull exactInt pts = e at inv hlen hel
  refine ⟨hlen, ?_⟩
  intro i hi
  have hlast := getD_last_of_getLast inv.bottom
  rcases Nat.lt_or_ge (i + 2) e.length with h1 | h1
  · rw [Nat.mod_eq_of_lt h1, Nat.mod_eq_of_lt (by omega : i + 1 < e.length)]
    have := (strict_getD inv.strict i h1).1
    rw [cross_rev]
    omega
  · rcases Nat.lt_or_ge (i + 1) e.length with h2 | h2
    · have h3 : i + 2 = e.length := by omega
      have h4 : i + 1 = e.length - 1 := by omega
      rw [h3, Nat.mod_self, Nat.mod_eq_of_lt h2, h4, hlast]
      have := ray_getD inv.strict hel i (by omega) h2
      rw [cross_flip]
      omega
    · have h3 : i + 1 = e.length := by omega
      have h4 : i + 2 = e.length + 1 := by omega
      have h5 : i = e.length - 1 := by omega
      rw [h4, Nat.add_mod_left, h3, Nat.mod_self, Nat.mod_eq_of_lt (by omega : 1 < e.length),
        h5, hlast]
      have := (strict_getD inv.strict 0 (by omega)).2
      rw [Nat.zero_add] at this
      rw [cross_swap]
      omega

/-! ## Only extreme points are printed -/

/-- Two non-zero vectors `α`, `β` that point in opposite directions cannot both be on the
left of a direction `d` unless they are parallel to it. -/
theorem raw_opposite (a1 a2 b1 b2 d1 d2 : Int) (hpar : a1 * b2 - a2 * b1 = 0)
    (hdot : a1 * b1 + a2 * b2 ≤ 0) (hb : 0 < b1 * b1 + b2 * b2)
    (h1 : 0 ≤ d1 * a2 - d2 * a1) (h2 : 0 ≤ d1 * b2 - d2 * b1) : d1 * a2 - d2 * a1 = 0 := by
  have key : (b1 * b1 + b2 * b2) * (d1 * a2 - d2 * a1) =
      (a1 * b1 + a2 * b2) * (d1 * b2 - d2 * b1) := by
    linear_combination (-(d1 * b1 + d2 * b2)) * hpar
  have hr : (a1 * b1 + a2 * b2) * (d1 * b2 - d2 * b1) ≤ 0 :=
    mul_nonpos_of_nonpos_of_nonneg hdot h2
  rw [← key] at hr
  rcases eq_or_lt_of_le h1 with h | h
  · exact h.symm
  · have := mul_pos hb h
    omega

/-- A vector parallel to two independent directions is zero. -/
theorem raw_two_lines (a1 a2 d1 d2 e1 e2 : Int) (hde : 0 < d1 * e2 - d2 * e1)
    (h1 : d1 * a2 - d2 * a1 = 0) (h2 : e1 * a2 - e2 * a1 = 0) : a1 = 0 ∧ a2 = 0 := by
  have k1 : (d1 * e2 - d2 * e1) * a1 = 0 := by linear_combination e1 * h1 - d1 * h2
  have k2 : (d1 * e2 - d2 * e1) * a2 = 0 := by linear_combination e2 * h1 - d2 * h2
  constructor
  · rcases mul_eq_zero.mp k1 with h | h
    · omega
    · exact h
  · rcases mul_eq_zero.mp k2 with h | h
    · omega
    · exact h

/-- A vertex with a strict turn between two supporting edges is not on a segment between two
other points of the supported set. -/
theorem vertex_not_on_segment {u v w a b : Point} (hturn : 0 < cross u v w)
    (hua : 0 ≤ cross u v a) (hub : 0 ≤ cross u v b) (hwa : 0 ≤ cross v w a)
    (hwb : 0 ≤ cross v w b) (_hav : a ≠ v) (hbv : b ≠ v) : ¬ onSegment a b v := by
  rintro ⟨hc, hx, hy⟩
  have hpar : (a.x - v.x) * (b.y - v.y) - (a.y - v.y) * (b.x - v.x) = 0 := by
    unfold cross at hc; linear_combination hc
  have hdot : (a.x - v.x) * (b.x - v.x) + (a.y - v.y) * (b.y - v.y) ≤ 0 := by
    nlinarith
  have hb : 0 < (b.x - v.x) * (b.x - v.x) + (b.y - v.y) * (b.y - v.y) := dist2_pos hbv
  have e1 : ∀ q : Point,
      (v.x - u.x) * (q.y - v.y) - (v.y - u.y) * (q.x - v.x) = cross u v q := by
    intro q; unfold cross; ring
  have e2 : ∀ q : Point,
      (w.x - v.x) * (q.y - v.y) - (w.y - v.y) * (q.x - v.x) = cross v w q := by
    intro q; unfold cross; ring
  have e3 : (v.x - u.x) * (w.y - v.y) - (v.y - u.y) * (w.x - v.x) = cross u v w := by
    unfold cross; ring
  have k1 := raw_opposite (a.x - v.x) (a.y - v.y) (b.x - v.x) (b.y - v.y) (v.x - u.x)
    (v.y - u.y) hpar hdot hb (by rw [e1]; exact hua) (by rw [e1]; exact hub)
  have k2 := raw_opposite (a.x - v.x) (a.y - v.y) (b.x - v.x) (b.y - v.y) (w.x - v.x)
    (w.y - v.y) hpar hdot hb (by rw [e2]; exact hwa) (by rw [e2]; exact hwb)
  obtain ⟨z1, z2⟩ := raw_two_lines (a.x - v.x) (a.y - v.y) (v.x - u.x) (v.y - u.y)
    (w.x - v.x) (w.y - v.y) (by rw [e3]; exact hturn) k1 k2
  exact _hav (point_ext (by omega) (by omega))

/-- A point that is first (or last) in the order of the pivot selection among `a`, `b` and
itself is not on the segment between `a` and `b` unless it is one of them. -/
theorem lex_not_on_segment {v a b : Point}
    (h : (lexLe v a ∧ lexLe v b) ∨ (lexLe a v ∧ lexLe b v)) (hav : a ≠ v) (hbv : b ≠ v) :
    ¬ onSegment a b v := by
  rintro ⟨hc, hx, hy⟩
  have hax : a.x = v.x → a.y = v.y → False := fun h1 h2 => hav (point_ext h1 h2)
  have hbx : b.x = v.x → b.y = v.y → False := fun h1 h2 => hbv (point_ext h1 h2)
  unfold cross at hc
  unfold lexLe at h
  have hy0 : (v.y - a.y) * (v.y - b.y) = 0 := by
    rcases h with ⟨h1, h2⟩ | ⟨h1, h2⟩
    · have : 0 ≤ (a.y - v.y) * (b.y - v.y) := mul_nonneg (by omega) (by omega)
      nlinarith
    · have : 0 ≤ (v.y - a.y) * (v.y - b.y) := mul_nonneg (by omega) (by omega)
      omega
  have hc2 : (b.y - a.y) * (v.x - a.x) = (b.x - a.x) * (v.y - a.y) := by linarith
  have hyy : a.y = v.y ∧ b.y = v.y := by
    rcases mul_eq_zero.mp hy0 with h0 | h0
    · have hay : a.y = v.y := by omega
      have hxne : v.x - a.x ≠ 0 := fun h3 => hax (by omega) hay
      have h4 : (b.y - a.y) * (v.x - a.x) = 0 := by
        rw [hc2, ← hay]; simp
      rcases mul_eq_zero.mp h4 with h5 | h5
      · exact ⟨hay, by omega⟩
      · exact absurd h5 hxne
    · have hby : b.y = v.y := by omega
      have hxne : v.x - b.x ≠ 0 := fun h3 => hbx (by omega) hby
      have h4 : (a.y - b.y) * (v.x - b.x) = 0 := by
        have : (a.y - b.y) * (v.x - b.x) =
            (b.x - a.x) * (v.y - a.y) - (b.y - a.y) * (v.x - a.x) + (a.x - b.x) * (v.y - b.y)
            := by ring
        rw [this, hc, ← hby]; simp
      rcases mul_eq_zero.mp h4 with h5 | h5
      · exact ⟨by omega, hby⟩
      · exact absurd h5 hxne
  obtain ⟨hay, hby⟩ := hyy
  have hpos : 0 < (v.x - a.x) * (v.x - b.x) := by
    rcases h with ⟨h1, h2⟩ | ⟨h1, h2⟩
    · have h3 : v.x - a.x < 0 := by
        have : v.x ≠ a.x := fun h => hax h.symm hay
        omega
      have h4 : v.x - b.x < 0 := by
        have : v.x ≠ b.x := fun h => hbx h.symm hby
        omega
      exact mul_pos_of_neg_of_neg h3 h4
    · have h3 : 0 < v.x - a.x := by
        have : v.x ≠ a.x := fun h => hax h.symm hay
        omega
      have h4 : 0 < v.x - b.x := by
        have : v.x ≠ b.x := fun h => hbx h.symm hby
        omega
      exact mul_pos h3 h4
  omega

/-- The weights of a point in a triangle carry every affine function: here the signed
distance to the line `u, v`. -/
theorem cross_barycentric (u v a b c z : Point) :
    cross a b c * cross u v z =
      cross b c z * cross u v a + cross c a z * cross u v b + cross a b z * cross u v c := by
  unfold cross; ring

/-- Non-negative numbers with a zero sum of strictly same-signed multiples are zero. -/
theorem weights_zero {w1 w2 w3 f1 f2 f3 : Int}
    (hw : (0 < w1 ∧ 0 < w2 ∧ 0 < w3) ∨ (w1 < 0 ∧ w2 < 0 ∧ w3 < 0))
    (h1 : 0 ≤ f1) (h2 : 0 ≤ f2) (h3 : 0 ≤ f3) (hs : w1 * f1 + w2 * f2 + w3 * f3 = 0) :
    f1 = 0 ∧ f2 = 0 ∧ f3 = 0 := by
  rcases hw with ⟨p1, p2, p3⟩ | ⟨p1, p2, p3⟩
  · have a1 := mul_nonneg (le_of_lt p1) h1
    have a2 := mul_nonneg (le_of_lt p2) h2
    have a3 := mul_nonneg (le_of_lt p3) h3
    refine ⟨?_, ?_, ?_⟩
    · rcases mul_eq_zero.mp (by omega : w1 * f1 = 0) with h | h <;> omega
    · rcases mul_eq_zero.mp (by omega : w2 * f2 = 0) with h | h <;> omega
    · rcases mul_eq_zero.mp (by omega : w3 * f3 = 0) with h | h <;> omega
  · have a1 := mul_nonpos_of_nonpos_of_nonneg (le_of_lt p1) h1
    have a2 := mul_nonpos_of_nonpos_of_nonneg (le_of_lt p2) h2
    have a3 := mul_nonpos_of_nonpos_of_nonneg (le_of_lt p3) h3
    refine ⟨?_, ?_, ?_⟩
    · rcases mul_eq_zero.mp (by omega : w1 * f1 = 0) with h | h <;> omega
    · rcases mul_eq_zero.mp (by omega : w2 * f2 = 0) with h | h <;> omega
    · rcases mul_eq_zero.mp (by omega : w3 * f3 = 0) with h | h <;> omega

/-- A point `v` on a supporting line `u, v` of `a`, `b`, `c` is not strictly inside their
triangle. -/
theorem vertex_not_inside {u v a b c : Point} (huv : v ≠ u) (ha : 0 ≤ cross u v a)
    (hb : 0 ≤ cross u v b) (hc : 0 ≤ cross u v c) : ¬ insideTriangle a b c v := by
  intro hin
  have hbar := cross_barycentric u v a b c v
  rw [cross_self_right, mul_zero] at hbar
  obtain ⟨z1, z2, z3⟩ := weights_zero
    (by
      rcases hin with ⟨h1, h2, h3⟩ | ⟨h1, h2, h3⟩
      · exact Or.inl ⟨h2, h3, h1⟩
      · exact Or.inr ⟨h2, h3, h1⟩) ha hb hc hbar.symm
  have hline := line_of_cross huv [a, b, v] (by
    intro q hq
    simp only [List.mem_cons, List.mem_singleton, List.not_mem_nil, or_false] at hq
    rcases hq with h | h | h
    · rw [h]; exact z1
    · rw [h]; exact z2
    · rw [h]; exact cross_self_right u v)
  have h0 := (onCommonLine_iff _).mp hline a (by simp) b (by simp) v (by simp)
  rcases hin with ⟨h1, _, _⟩ | ⟨h1, _, _⟩ <;> omega

/-- The pivot is not strictly inside a triangle of points that are not below it. -/
theorem pivot_not_inside {p a b c : Point} (ha : lexLe p a) (hb : lexLe p b)
    (hc : lexLe p c) : ¬ insideTriangle a b c p := by
  intro hin
  have hbar : cross b c p * (a.y - p.y) + cross c a p * (b.y - p.y) +
      cross a b p * (c.y - p.y) = 0 := by
    unfold cross; ring
  unfold lexLe at ha hb hc
  obtain ⟨z1, z2, z3⟩ := weights_zero
    (by
      rcases hin with ⟨h1, h2, h3⟩ | ⟨h1, h2, h3⟩
      · exact Or.inl ⟨h2, h3, h1⟩
      · exact Or.inr ⟨h2, h3, h1⟩) (by omega) (by omega) (by omega) hbar
  have h0 : cross a b p = 0 := by
    unfold cross
    have e1 : p.y - a.y = 0 := by omega
    have e2 : b.y - a.y = 0 := by omega
    rw [e1, e2]; ring
  rcases hin with ⟨h1, _, _⟩ | ⟨h1, _, _⟩ <;> omega

/-- On a ray of the pivot the order of the distances is the order of the pivot selection. -/
theorem raw_lex_of_ray (a b c d : Int) (hu : 0 < b ∨ (b = 0 ∧ 0 ≤ a))
    (hv : 0 < d ∨ (d = 0 ∧ 0 ≤ c)) (h : a * d - b * c = 0)
    (hd : a * a + b * b ≤ c * c + d * d) : b < d ∨ (b = d ∧ a ≤ c) := by
  have hb0 : 0 ≤ b := by omega
  have hd0 : 0 ≤ d := by omega
  rcases eq_or_lt_of_le (raw_norm_nonneg c d) with h0 | h0
  · obtain ⟨hc, hdz⟩ := raw_norm_eq_zero c d h0.symm
    subst hc; subst hdz
    have h1 : a * a + b * b = 0 := le_antisymm (by simpa using hd) (raw_norm_nonneg a b)
    obtain ⟨ha, hb⟩ := raw_norm_eq_zero a b h1
    right; omega
  · have key : d * d * (a * a + b * b) = b * b * (c * c + d * d) := by
      linear_combination (a * d + b * c) * h
    have h1 : d * d * (a * a + b * b) ≤ d * d * (c * c + d * d) :=
      mul_le_mul_of_nonneg_left hd (mul_self_nonneg d)
    rw [key] at h1
    have h2 : b * b ≤ d * d := le_of_mul_le_mul_right h1 h0
    have h3 : b ≤ d := by
      by_contra hneg
      push_neg at hneg
      have := mul_lt_mul'' hneg hneg hd0 hd0
      omega
    rcases eq_or_lt_of_le h3 with h4 | h4
    · right
      refine ⟨h4, ?_⟩
      subst h4
      rcases eq_or_lt_of_le hb0 with h5 | h5
      · subst h5
        have ha0 : 0 ≤ a := by omega
        have hc0 : 0 ≤ c := by omega
        have h6 : a * a ≤ c * c := by simpa using hd
        by_contra hneg
        push_neg at hneg
        have := mul_lt_mul'' hneg hneg hc0 hc0
        omega
      · have h6 : b * (a - c) = 0 := by linear_combination h
        rcases mul_eq_zero.mp h6 with h7 | h7 <;> omega
    · exact Or.inl h4

theorem lexLe_of_ray {p q t : Point} (hq : lexLe p q) (ht : lexLe p t)
    (h : cross p q t = 0) (hd : dist2 p q ≤ dist2 p t) : lexLe q t := by
  have := raw_lex_of_ray _ _ _ _ (lexLe_raw hq) (lexLe_raw ht) h hd
  unfold lexLe
  omega

/-! ## Facts on the output for every arithmetic -/

theorem convex_hull_nil (w : Int → Int) : convex_hull w [] = [] := rfl

theorem scan_fold_subset (w : Int → Int) (s : List Point) :
    ∀ S : List Point, ∀ h ∈ s.foldl (scan_step w) S, h ∈ S ∨ h ∈ s := by
  induction s with
  | nil => intro S h hh; exact Or.inl hh
  | cons a s ih =>
    intro S h hh
    rw [List.foldl_cons] at hh
    rcases ih _ h hh with h1 | h1
    · unfold scan_step at h1
      rcases List.mem_cons.mp h1 with h2 | h2
      · exact Or.inr (by rw [h2]; exact List.mem_cons_self _ _)
      · exact Or.inl ((pop_loop_suffix w a S).subset h2)
    · exact Or.inr (List.mem_cons_of_mem _ h1)

theorem scan_fold_length (w : Int → Int) (s : List Point) :
    ∀ S : List Point, (s.foldl (scan_step w) S).length ≤ S.length + s.length := by
  induction s with
  | nil => intro S; simp
  | cons a s ih =>
    intro S
    rw [List.foldl_cons]
    have h1 := ih (scan_step w S a)
    have h2 : (scan_step w S a).length ≤ S.length + 1 := by
      unfold scan_step
      have := (pop_loop_suffix w a S).length_le
      simpa using this
    simp only [List.length_cons]
    omega

theorem scan_fold_getLast (w : Int → Int) (s : List Point) :
    ∀ S : List Point, S ≠ [] → (s.foldl (scan_step w) S).getLast? = S.getLast? := by
  induction s with
  | nil => intro S _; rfl
  | cons a s ih =>
    intro S hS
    rw [List.foldl_cons, ih _ (by unfold scan_step; exact List.cons_ne_nil _ _)]
    unfold scan_step
    have hne := pop_loop_ne_nil w a S hS
    have hl := pop_loop_getLast w a S
    generalize pop_loop w a S = R at hne hl
    cases R with
    | nil => exact absurd rfl hne
    | cons t R => rw [List.getLast?_cons_cons]; exact hl

theorem convex_hull_subset (w : Int → Int) (pts : List Point) :
    ∀ v ∈ convex_hull w pts, v ∈ pts := by
  intro v hv
  have hne : pts ≠ [] := by
    intro h; rw [h, convex_hull_nil] at hv; simp at hv
  obtain ⟨p, rest, h1, h2, _, _⟩ := convex_hull_eq w pts hne
  rw [h1] at hv
  apply h2.subset
  rcases scan_fold_subset w _ _ v hv with h | h
  · simp only [List.mem_singleton] at h
    rw [h]; exact List.mem_cons_self _ _
  · exact List.mem_cons_of_mem _ ((std_sort_perm _ rest).subset h)

theorem convex_hull_length (w : Int → Int) (pts : List Point) :
    (convex_hull w pts).length ≤ pts.length := by
  by_cases hne : pts = []
  · rw [hne, convex_hull_nil]
  · obtain ⟨p, rest, h1, h2, _, _⟩ := convex_hull_eq w pts hne
    rw [h1, ← h2.length_eq]
    have := scan_fold_length w (std_sort (Compare w p) rest) [p]
    rw [(std_sort_perm _ rest).length_eq] at this
    simp only [List.length_cons, List.length_nil] at this ⊢
    omega

theorem convex_hull_pivot (w : Int → Int) (pts : List Point) (hne : pts ≠ []) :
    ∃ p, p ∈ pts ∧ (∀ q ∈ pts, lexLe p q) ∧ (convex_hull w pts).getLast? = some p := by
  obtain ⟨p, rest, h1, h2, h3, _⟩ := convex_hull_eq w pts hne
  refine ⟨p, h2.subset (List.mem_cons_self _ _), h3, ?_⟩
  rw [h1, scan_fold_getLast w _ [p] (List.cons_ne_nil _ _)]
  rfl

theorem find_bottom_left_one (p : Point) : find_bottom_left [p] = 0 := by
  simp [find_bottom_left, List.range_succ, bottom_left_step]

theorem find_bottom_left_two (p q : Point) :
    find_bottom_left [p, q] = if q.y < p.y ∨ (q.y = p.y ∧ q.x < p.x) then 1 else 0 := by
  by_cases h1 : q.y < p.y
  · simp [find_bottom_left, List.range_succ, bottom_left_step, h1]
  · by_cases h2 : q.y = p.y ∧ q.x < p.x
    · simp [find_bottom_left, List.range_succ, bottom_left_step, h1, h2]
    · have h3 : ¬ (q.y < p.y ∨ (q.y = p.y ∧ q.x < p.x)) := by tauto
      rw [if_neg h3]
      simp only [not_and] at h2
      simp [find_bottom_left, List.range_succ, bottom_left_step, h1]
      intro h4
      have := h2 h4
      omega

theorem convex_hull_one (w : Int → Int) (p : Point) : convex_hull w [p] = [p] := by
  unfold convex_hull sorted_points
  rw [find_bottom_left_one]
  rfl

theorem convex_hull_two (w : Int → Int) (p q : Point) :
    convex_hull w [p, q] =
      if q.y < p.y ∨ (q.y = p.y ∧ q.x < p.x) then [p, q] else [q, p] := by
  unfold convex_hull sorted_points
  rw [find_bottom_left_two]
  split <;> rfl

/-- No printed point lies on a segment between two other input points or strictly inside a
triangle of input points. -/
theorem hull_extreme (pts : List Point) (v : Point) (hv : v ∈ convex_hull exactInt pts) :
    (∀ a ∈ pts, ∀ b ∈ pts, a ≠ v → b ≠ v → ¬ onSegment a b v) ∧
    (∀ a ∈ pts, ∀ b ∈ pts, ∀ c ∈ pts, ¬ insideTriangle a b c v) := by
  have hne : pts ≠ [] := by
    intro h; rw [h, convex_hull_nil] at hv; simp at hv
  obtain ⟨p, Q, hperm, hlex, inv⟩ := hull_inv pts hne
  have hall : ∀ q ∈ pts, q = p ∨ q ∈ Q := fun q hq => List.mem_cons.mp (hperm.symm.subset hq)
  have hQlex : ∀ q ∈ Q, lexLe p q := fun q hq =>
    hlex q (hperm.subset (List.mem_cons_of_mem _ hq))
  generalize convex_hull exactInt pts = e at inv hv
  by_cases hvp : v = p
  · subst hvp
    exact ⟨fun a ha b hb hav hbv => lex_not_on_segment (Or.inl ⟨hlex a ha, hlex b hb⟩) hav hbv,
      fun a ha b hb c hc => pivot_not_inside (hlex a ha) (hlex b hb) (hlex c hc)⟩
  · obtain ⟨i, hi, hvi⟩ := List.mem_iff_getElem.mp hv
    have hvi2 : e.getD i default = v := by
      rw [List.getD_eq_getElem e default hi]; exact hvi
    have hlast := getD_last_of_getLast inv.bottom
    have hi1 : i + 1 < e.length := by
      by_contra hcon
      have : i = e.length - 1 := by omega
      rw [this, hlast] at hvi2
      exact hvp hvi2.symm
    have hedge : ∀ q ∈ pts, 0 ≤ cross (e.getD (i + 1) default) v q := by
      intro q hq
      have := chain_getD (inv_left_all inv q (hall q hq)) i hi1
      rw [hvi2] at this
      exact this
    have huv : v ≠ e.getD (i + 1) default := by
      intro hcon
      rcases Nat.lt_or_ge (i + 2) e.length with h2 | h2
      · have := (strict_getD inv.strict i h2).2
        rw [hvi2, ← hcon, cross_self_right] at this
        omega
      · have : i + 1 = e.length - 1 := by omega
        rw [this, hlast] at hcon
        exact hvp hcon
    refine ⟨?_, fun a ha b hb c hc =>
      vertex_not_inside huv (hedge a ha) (hedge b hb) (hedge c hc)⟩
    intro a ha b hb hav hbv
    rcases Nat.lt_or_ge (e.length) 3 with hlen | hlen
    · have hi0 : i = 0 := by omega
      subst hi0
      have hup : e.getD (0 + 1) default = p := by
        have : 0 + 1 = e.length - 1 := by omega
        rw [this, hlast]
      have hvQ : v = p ∨ v ∈ Q := inv.mem v hv
      have hvlex : lexLe p v := stack_lexLe hQlex hvQ
      have hmax : ∀ q ∈ pts, lexLe q v := by
        intro q hq
        rcases hall q hq with h1 | h1
        · rw [h1]; exact hvlex
        · have h2 := hedge q hq
          rw [hup] at h2
          have h3 := inv.top q h1 v (by rw [← hvi2]; exact getD_zero_of_head (inv_ne_nil inv))
          have h4 := beforeEq_cross h3
          have h5 := cross_swap p q v
          have h6 : cross p q v = 0 := by omega
          exact lexLe_of_ray (hQlex q h1) hvlex h6 (beforeEq_dist h3 h6)
      exact lex_not_on_segment (Or.inr ⟨hmax a ha, hmax b hb⟩) hav hbv
    · cases i with
      | zero =>
        have hturn : 0 < cross (e.getD (0 + 1) default) v p := by
          have := (strict_getD inv.strict 0 (by omega)).2
          rw [hvi2] at this
          rw [cross_rot]; exact this
        have hclose : ∀ q ∈ pts, 0 ≤ cross v p q := fun q hq =>
          inv_closing inv q (hall q hq) v (by
            rw [← hvi2]; exact getD_zero_of_head (inv_ne_nil inv))
        exact vertex_not_on_segment hturn (hedge a ha) (hedge b hb) (hclose a ha)
          (hclose b hb) hav hbv
      | succ j =>
        have hturn : 0 < cross (e.getD (j + 1 + 1) default) v (e.getD j default) := by
          have := (strict_getD inv.strict j (by omega)).1
          rw [hvi2] at this
          exact this
        have hnext : ∀ q ∈ pts, 0 ≤ cross v (e.getD j default) q := by
          intro q hq
          have := chain_getD (inv_left_all inv q (hall q hq)) j (by omega)
          rw [hvi2] at this
          exact this
        exact vertex_not_on_segment hturn (hedge a ha) (hedge b hb) (hnext a ha)
          (hnext b hb) hav hbv

/-! ## The output does not depend on the order of the input -/

/-- On rearranged inputs `convex_hull` prints the same sequence. -/
theorem convex_hull_perm {pts1 pts2 : List Point} (hperm : pts1.Perm pts2) :
    convex_hull exactInt pts1 = convex_hull exactInt pts2 := by
  by_cases hne : pts1 = []
  · rw [hne] at hperm ⊢
    rw [List.nil_perm.mp hperm]
  · have hne2 : pts2 ≠ [] := fun h => hne (by rw [h] at hperm; exact List.perm_nil.mp hperm)
    obtain ⟨p1, rest1, e1, hp1, hl1, _⟩ := convex_hull_eq exactInt pts1 hne
    obtain ⟨p2, rest2, e2, hp2, hl2, _⟩ := convex_hull_eq exactInt pts2 hne2
    have hp12 : p1 = p2 := by
      apply lexLe_antisymm
      · exact hl1 p2 (hperm.symm.subset (hp2.subset (List.mem_cons_self _ _)))
      · exact hl2 p1 (hperm.subset (hp1.subset (List.mem_cons_self _ _)))
    subst hp12
    have hrest : rest1.Perm rest2 :=
      List.Perm.cons_inv (hp1.trans (hperm.trans hp2.symm))
    have hlex1 : ∀ q ∈ rest1, lexLe p1 q := fun q hq =>
      hl1 q (hp1.subset (List.mem_cons_of_mem _ hq))
    have hlex2 : ∀ q ∈ rest2, lexLe p1 q := fun q hq =>
      hl2 q (hp2.subset (List.mem_cons_of_mem _ hq))
    have hs : std_sort (Compare exactInt p1) rest1 = std_sort (Compare exactInt p1) rest2 :=
      sorted_unique p1
        (((std_sort_perm _ rest1).trans hrest).trans (std_sort_perm _ rest2).symm)
        (std_sort_sorted p1 rest1 hlex1) (std_sort_sorted p1 rest2 hlex2)
    rw [e1, e2, hs]

/-! ## Input on one line -/

theorem pop_loop_two_collinear (p t a : Point) (h : cross p t a = 0) :
    pop_loop exactInt a [t, p] = [p] := by
  rw [pop_loop_cons_cons, get_direction_exact, h]
  simp [pop_loop_single]

/-- The scan of points that are all collinear with the pivot keeps the pivot and the last
point only. -/
theorem scan_collinear (p : Point) (s : List Point) :
    ∀ t : Point, (∀ x ∈ t :: s, ∀ y ∈ t :: s, cross p x y = 0) →
      ∃ far, (t :: s).getLast? = some far ∧
        s.foldl (scan_step exactInt) [t, p] = [far, p] := by
  induction s with
  | nil => intro t _; exact ⟨t, rfl, rfl⟩
  | cons a s ih =>
    intro t h
    obtain ⟨far, h1, h2⟩ := ih a (fun x hx y hy =>
      h x (List.mem_cons_of_mem _ hx) y (List.mem_cons_of_mem _ hy))
    refine ⟨far, by rw [List.getLast?_cons_cons]; exact h1, ?_⟩
    rw [List.foldl_cons]
    have : scan_step exactInt [t, p] a = [a, p] := by
      unfold scan_step
      rw [pop_loop_two_collinear p t a (h t (by simp) a (by simp))]
    rw [this]
    exact h2

theorem pairwise_getLast {R : Point → Point → Prop} (hrefl : ∀ a, R a a) :
    ∀ (l : List Point) (z : Point), l.Pairwise R → l.getLast? = some z → ∀ q ∈ l, R q z := by
  intro l
  induction l with
  | nil => intro z _ _ q hq; simp at hq
  | cons a l ih =>
    intro z hpw hz q hq
    obtain ⟨h1, h2⟩ := List.pairwise_cons.mp hpw
    cases l with
    | nil =>
      simp only [List.getLast?_singleton, Option.some.injEq] at hz
      simp only [List.mem_singleton] at hq
      rw [hq, hz]; exact hrefl _
    | cons b l =>
      rw [List.getLast?_cons_cons] at hz
      have hzmem : z ∈ b :: l := List.mem_of_mem_getLast? hz
      rcases List.mem_cons.mp hq with h3 | h3
      · rw [h3]; exact h1 z hzmem
      · exact ih z h2 hz q h3

/-- On an input of at least two points of one line `convex_hull` prints the point farthest
from the pivot and then the pivot. -/
theorem convex_hull_collinear (pts : List Point) (hn : 2 ≤ pts.length)
    (hline : OnCommonLine pts) :
    ∃ far p, convex_hull exactInt pts = [far, p] ∧ p ∈ pts ∧ (∀ q ∈ pts, lexLe p q) ∧
      far ∈ pts ∧ ∀ q ∈ pts, dist2 p q ≤ dist2 p far := by
  have hne : pts ≠ [] := by
    intro h; rw [h] at hn; simp at hn
  obtain ⟨p, rest, e1, hp, hl, _⟩ := convex_hull_eq exactInt pts hne
  have hcross := (onCommonLine_iff pts).mp hline
  have hpm : p ∈ pts := hp.subset (List.mem_cons_self _ _)
  have hsp := std_sort_perm (Compare exactInt p) rest
  have hlex : ∀ q ∈ rest, lexLe p q := fun q hq =>
    hl q (hp.subset (List.mem_cons_of_mem _ hq))
  have hsorted := std_sort_sorted p rest hlex
  have hsmem : ∀ q ∈ std_sort (Compare exactInt p) rest, q ∈ pts := fun q hq =>
    hp.subset (List.mem_cons_of_mem _ (hsp.subset hq))
  have hlen : (std_sort (Compare exactInt p) rest).length + 1 = pts.length := by
    rw [hsp.length_eq, ← hp.length_eq]; rfl
  generalize std_sort (Compare exactInt p) rest = s at e1 hsp hsorted hsmem hlen
  cases s with
  | nil => simp at hlen; omega
  | cons t s =>
    obtain ⟨far, h1, h2⟩ := scan_collinear p s t (fun x hx y hy =>
      hcross p hpm x (hsmem x hx) y (hsmem y hy))
    have hfar : far ∈ t :: s := List.mem_of_mem_getLast? h1
    refine ⟨far, p, ?_, hpm, hl, hsmem far hfar, ?_⟩
    · rw [e1, List.foldl_cons]
      exact h2
    · intro q hq
      rcases List.mem_cons.mp (hp.symm.subset hq) with h3 | h3
      · rw [h3, dist2_self]; exact dist2_nonneg _ _
      · have h4 := pairwise_getLast (beforeEq_refl p) (t :: s) far hsorted h1 q
          (hsp.symm.subset h3)
        exact beforeEq_dist h4 (hcross p hpm q hq far (hsmem far hfar))

/-! ## The contract of `convex_hull` -/

theorem main_points_not_on_line : ¬ OnCommonLine main_points := by
  intro h
  have := (onCommonLine_iff _).mp h ⟨0, 0⟩ (by decide) ⟨4, 1⟩ (by decide) ⟨0, 3⟩ (by decide)
  exact absurd this (by decide)

/-- Claim C1 (containment): for an input of at least three points that do not all lie on one
line, in exact integer arithmetic, let `h_0 .. h_k` be the final stack of `convex_hull` from
bottom to top.  Every input point `q` satisfies `get_direction(h_i, h_j, q) >= 0` for every
cyclically consecutive pair, `j = (i + 1) mod (k + 1)`: it is inside or on the boundary of
the polygon of the returned vertices. -/
theorem containment (pts : List Point) (_hn : 3 ≤ pts.length) (_hline : ¬ OnCommonLine pts)
    (q : Point) (hq : q ∈ pts) (i : Nat)
    (hi : i < (convex_hull exactInt pts).reverse.length) :
    0 ≤ get_direction exactInt ((convex_hull exactInt pts).reverse.getD i default)
      ((convex_hull exactInt pts).reverse.getD
        ((i + 1) % (convex_hull exactInt pts).reverse.length) default) q :=
  hull_contains pts q hq i hi

/-- The containment theorem at the input of `main`, the point `(1, 1)` and the closing edge
of the hull. -/
theorem containment_witness :
    3 ≤ main_points.length ∧ ¬ OnCommonLine main_points ∧
      (⟨1, 1⟩ : Point) ∈ main_points ∧
      3 < (convex_hull exactInt main_points).reverse.length ∧
      0 ≤ get_direction exactInt ((convex_hull exactInt main_points).reverse.getD 3 default)
        ((convex_hull exactInt main_points).reverse.getD
          ((3 + 1) % (convex_hull exactInt main_points).reverse.length) default) ⟨1, 1⟩ :=
  ⟨by decide, main_points_not_on_line, by decide, by decide,
    containment main_points (by decide) main_points_not_on_line ⟨1, 1⟩ (by decide) 3
      (by decide)⟩

/-- The segment predicate is inhabited: `(1,0)` lies on the segment between `(0,0)` and
`(2,0)`. -/
theorem onSegment_example : onSegment ⟨0, 0⟩ ⟨2, 0⟩ ⟨1, 0⟩ := by
  decide

/-- The triangle predicate is inhabited: `(1,1)` lies strictly inside the triangle
`(0,0)`, `(4,1)`, `(0,3)`. -/
theorem insideTriangle_example : insideTriangle ⟨0, 0⟩ ⟨4, 1⟩ ⟨0, 3⟩ ⟨1, 1⟩ := by
  decide

/-- Claim C2 (only extreme points survive): in exact integer arithmetic no point `v` printed
by `convex_hull` lies on the closed segment between two input points that both differ from
`v`, and none lies strictly inside a triangle of three input points; in particular `v` is not
on the segment between two other printed points. -/
theorem only_extreme_points (pts : List Point) (v : Point)
    (hv : v ∈ convex_hull exactInt pts) :
    (∀ a ∈ pts, ∀ b ∈ pts, a ≠ v → b ≠ v → ¬ onSegment a b v) ∧
    (∀ a ∈ pts, ∀ b ∈ pts, ∀ c ∈ pts, ¬ insideTriangle a b c v) ∧
    (∀ a ∈ convex_hull exactInt pts, ∀ b ∈ convex_hull exactInt pts,
      a ≠ v → b ≠ v → ¬ onSegment a b v) :=
  ⟨(hull_extreme pts v hv).1, (hull_extreme pts v hv).2,
    fun a ha b hb => (hull_extreme pts v hv).1 a (convex_hull_subset exactInt pts a ha) b
      (convex_hull_subset exactInt pts b hb)⟩

/-- The theorem on extreme points at the input of `main` and its printed vertex `(4, 4)`. -/
theorem only_extreme_points_witness :
    (⟨4, 4⟩ : Point) ∈ convex_hull exactInt main_points ∧
      ((∀ a ∈ main_points, ∀ b ∈ main_points, a ≠ ⟨4, 4⟩ → b ≠ ⟨4, 4⟩ →
          ¬ onSegment a b ⟨4, 4⟩) ∧
        (∀ a ∈ main_points, ∀ b ∈ main_points, ∀ c ∈ main_points,
          ¬ insideTriangle a b c ⟨4, 4⟩) ∧
        (∀ a ∈ convex_hull exactInt main_points, ∀ b ∈ convex_hull exactInt main_points,
          a ≠ ⟨4, 4⟩ → b ≠ ⟨4, 4⟩ → ¬ onSegment a b ⟨4, 4⟩)) :=
  ⟨by decide, only_extreme_points main_points ⟨4, 4⟩ (by decide)⟩

/-- Claim C3 (convexity): for an input of at least three points that do not all lie on one
line, in exact integer arithmetic, the sequence printed by `convex_hull` (the stack from top
to bottom) has at least three vertices, and every cyclically consecutive triple `a, b, c` of
it, the two triples that wrap around included, has `get_direction(a, b, c) < 0`: a strictly
convex polygon in clock-wise order. -/
theorem convexity (pts : List Point) (_hn : 3 ≤ pts.length) (hline : ¬ OnCommonLine pts) :
    3 ≤ (convex_hull exactInt pts).length ∧
    ∀ i, i < (convex_hull exactInt pts).length →
      get_direction exactInt ((convex_hull exactInt pts).getD i default)
        ((convex_hull exactInt pts).getD ((i + 1) % (convex_hull exactInt pts).length) default)
        ((convex_hull exactInt pts).getD ((i + 2) % (convex_hull exactInt pts).length) default)
        < 0 :=
  hull_convex pts hline

/-- The convexity theorem at the input of `main`. -/
theorem convexity_witness :
    3 ≤ main_points.length ∧ ¬ OnCommonLine main_points ∧
      (3 ≤ (convex_hull exactInt main_points).length ∧
        ∀ i, i < (convex_hull exactInt main_points).length →
          get_direction exactInt ((convex_hull exactInt main_points).getD i default)
            ((convex_hull exactInt main_points).getD
              ((i + 1) % (convex_hull exactInt main_points).length) default)
            ((convex_hull exactInt main_points).getD
              ((i + 2) % (convex_hull exactInt main_points).length) default) < 0) :=
  ⟨by decide, main_points_not_on_line,
    convexity main_points (by decide) main_points_not_on_line⟩

/-- Claim C4 (hull vertex containment): for every input of at least one point, and every
arithmetic, each point printed by `convex_hull` is one of the input points, and at most as
many points are printed as the input holds. -/
theorem hull_vertices_from_input (w : Int → Int) (pts : List Point) (_hn : 1 ≤ pts.length) :
    (∀ v ∈ convex_hull w pts, v ∈ pts) ∧ (convex_hull w pts).length ≤ pts.length :=
  ⟨convex_hull_subset w pts, convex_hull_length w pts⟩

/-- The theorem on the hull vertices at the input of `main`, in wrap-around arithmetic. -/
theorem hull_vertices_from_input_witness :
    1 ≤ main_points.length ∧ (∀ v ∈ convex_hull wrap32 main_points, v ∈ main_points) ∧
      (convex_hull wrap32 main_points).length ≤ main_points.length :=
  ⟨by decide, hull_vertices_from_input wrap32 main_points (by decide)⟩

/-- Claim C5 (pivot correctness): for every input of at least one point, and every
arithmetic, the input point with the minimum `y`, ties broken by the minimum `x`, appears in
the output of `convex_hull`: it is the bottom of the final stack, hence the last point
printed, and it is the bottom of the stack after every iteration of the scan loop (it is
never popped). -/
theorem pivot_in_output (w : Int → Int) (pts : List Point) (hn : 1 ≤ pts.length) :
    ∃ p, p ∈ pts ∧ (∀ q ∈ pts, p.y < q.y ∨ (p.y = q.y ∧ p.x ≤ q.x)) ∧
      p ∈ convex_hull w pts ∧ (convex_hull w pts).getLast? = some p ∧
      ∀ k, 1 ≤ k →
        (((sorted_points w pts).take k).foldl (scan_step w) []).getLast? = some p := by
  have hne : pts ≠ [] := by
    intro h; rw [h] at hn; simp at hn
  obtain ⟨p, h1, h2, h3⟩ := convex_hull_pivot w pts hne
  obtain ⟨p2, rest, e1, _, _, _⟩ := sorted_points_eq w pts hne
  refine ⟨p, h1, h2, List.mem_of_mem_getLast? h3, h3, ?_⟩
  have hp : p2 = p := by
    have h4 : (convex_hull w pts).getLast? = some p2 := by
      unfold convex_hull
      rw [e1, List.foldl_cons, scan_step_nil,
        scan_fold_getLast w _ [p2] (List.cons_ne_nil _ _)]
      rfl
    rw [h3] at h4
    exact (Option.some.inj h4).symm
  subst hp
  intro k hk
  obtain ⟨j, rfl⟩ : ∃ j, k = j + 1 := ⟨k - 1, by omega⟩
  rw [e1, List.take_succ_cons, List.foldl_cons, scan_step_nil,
    scan_fold_getLast w _ [p2] (List.cons_ne_nil _ _)]
  rfl

/-- The pivot theorem at the input of `main`. -/
theorem pivot_in_output_witness :
    1 ≤ main_points.length ∧
      ∃ p, p ∈ main_points ∧ (∀ q ∈ main_points, p.y < q.y ∨ (p.y = q.y ∧ p.x ≤ q.x)) ∧
        p ∈ convex_hull exactInt main_points ∧
        (convex_hull exactInt main_points).getLast? = some p ∧
        ∀ k, 1 ≤ k →
          (((sorted_points exactInt main_points).take k).foldl
            (scan_step exactInt) []).getLast? = some p :=
  ⟨by decide, pivot_in_output exactInt main_points (by decide)⟩

/-- Claim C6 (permutation invariance): for every input of at least one point and every
rearrangement of it, in exact integer arithmetic, `convex_hull` prints the same set of
vertices on both. -/
theorem permutation_invariance (pts1 pts2 : List Point) (_hn : 1 ≤ pts1.length)
    (hperm : pts2.Perm pts1) (v : Point) :
    v ∈ convex_hull exactInt pts2 ↔ v ∈ convex_hull exactInt pts1 := by
  rw [convex_hull_perm hperm]

/-- The permutation theorem at the input of `main` and its reversal. -/
theorem permutation_invariance_witness :
    1 ≤ main_points.length ∧ main_points.reverse.Perm main_points ∧
      ((⟨4, 1⟩ : Point) ∈ convex_hull exactInt main_points.reverse ↔
        (⟨4, 1⟩ : Point) ∈ convex_hull exactInt main_points) :=
  ⟨by decide, List.reverse_perm main_points,
    permutation_invariance main_points main_points.reverse (by decide)
      (List.reverse_perm main_points) ⟨4, 1⟩⟩

/-- Claim C7 (reference scenario): on the ten points of `main`, `convex_hull` prints exactly
`(0,3)`, `(4,4)`, `(4,1)`, `(0,0)`, in that order, in exact arithmetic as in 32-bit wrap-around
arithmetic. -/
theorem reference_scenario :
    convex_hull exactInt main_points = [⟨0, 3⟩, ⟨4, 4⟩, ⟨4, 1⟩, ⟨0, 0⟩] ∧
      convex_hull wrap32 main_points = [⟨0, 3⟩, ⟨4, 4⟩, ⟨4, 1⟩, ⟨0, 0⟩] :=
  ⟨by decide, by decide⟩

theorem pruning_points_hull :
    convex_hull exactInt [⟨0, 0⟩, ⟨1, 0⟩, ⟨2, 0⟩, ⟨1, 1⟩] = [⟨1, 1⟩, ⟨2, 0⟩, ⟨0, 0⟩] := by
  decide

/-- Claim C8 (collinear pruning scenario): on the points `(0,0)`, `(1,0)`, `(2,0)`, `(1,1)`
in any order, the set of vertices printed by `convex_hull` is exactly
`(0,0)`, `(2,0)`, `(1,1)`; the point `(1,0)` on the edge between `(0,0)` and `(2,0)` is not
printed. -/
theorem collinear_pruning_scenario (pts : List Point)
    (hperm : pts.Perm [⟨0, 0⟩, ⟨1, 0⟩, ⟨2, 0⟩, ⟨1, 1⟩]) :
    (∀ v, v ∈ convex_hull exactInt pts ↔ v ∈ [(⟨0, 0⟩ : Point), ⟨2, 0⟩, ⟨1, 1⟩]) ∧
      (⟨1, 0⟩ : Point) ∉ convex_hull exactInt pts := by
  rw [convex_hull_perm hperm, pruning_points_hull]
  refine ⟨fun v => ?_, by decide⟩
  simp only [List.mem_cons, List.mem_singleton, List.not_mem_nil, or_false]
  tauto

/-- The pruning scenario with the four points in the order `(1,1)`, `(2,0)`, `(1,0)`,
`(0,0)`. -/
theorem collinear_pruning_scenario_witness :
    ([⟨1, 1⟩, ⟨2, 0⟩, ⟨1, 0⟩, ⟨0, 0⟩] : List Point).Perm [⟨0, 0⟩, ⟨1, 0⟩, ⟨2, 0⟩, ⟨1, 1⟩] ∧
      ((∀ v, v ∈ convex_hull exactInt [⟨1, 1⟩, ⟨2, 0⟩, ⟨1, 0⟩, ⟨0, 0⟩] ↔
          v ∈ [(⟨0, 0⟩ : Point), ⟨2, 0⟩, ⟨1, 1⟩]) ∧
        (⟨1, 0⟩ : Point) ∉ convex_hull exactInt [⟨1, 1⟩, ⟨2, 0⟩, ⟨1, 0⟩, ⟨0, 0⟩]) :=
  ⟨by decide, collinear_pruning_scenario _ (by decide)⟩

/-- Claim C9 (degenerate sizes): in every arithmetic, on an input of exactly one point
`convex_hull` prints that point; on an input of exactly two points, equal or not, it prints
both, the pivot (minimum `y`, then minimum `x`) last: the second point is the pivot exactly
when it is strictly smaller in that order.  No point is dropped. -/
theorem degenerate_sizes (w : Int → Int) (p q : Point) :
    convex_hull w [p] = [p] ∧
      convex_hull w [p, q] =
        (if q.y < p.y ∨ (q.y = p.y ∧ q.x < p.x) then [p, q] else [q, p]) ∧
      (convex_hull w [p, q]).Perm [p, q] ∧
      ∃ other pivot, convex_hull w [p, q] = [other, pivot] ∧
        (pivot.y < other.y ∨ (pivot.y = other.y ∧ pivot.x ≤ other.x)) := by
  refine ⟨convex_hull_one w p, convex_hull_two w p q, ?_, ?_⟩
  · rw [convex_hull_two]
    split
    · exact List.Perm.refl _
    · exact List.Perm.swap p q []
  · rw [convex_hull_two]
    split
    · rename_i h
      exact ⟨p, q, rfl, by omega⟩
    · rename_i h
      exact ⟨q, p, rfl, by omega⟩

/-- Claim C10 (input on one line): for every input of at least two points that all lie on
one common line, in exact integer arithmetic, `convex_hull` prints exactly two points: first
an input point `far` that is at least as far from the pivot as every input point, then the
pivot `p`, the input point with the minimum `y`, then minimum `x`. -/
theorem all_collinear_output (pts : List Point) (hn : 2 ≤ pts.length)
    (hline : OnCommonLine pts) :
    ∃ far p, convex_hull exactInt pts = [far, p] ∧
      p ∈ pts ∧ (∀ q ∈ pts, p.y < q.y ∨ (p.y = q.y ∧ p.x ≤ q.x)) ∧
      far ∈ pts ∧ ∀ q ∈ pts, dist2 p q ≤ dist2 p far :=
  convex_hull_collinear pts hn hline

/-- The theorem on collinear inputs at three points of the line `x = y`. -/
theorem all_collinear_output_witness :
    2 ≤ ([⟨1, 1⟩, ⟨3, 3⟩, ⟨2, 2⟩] : List Point).length ∧
      OnCommonLine [⟨1, 1⟩, ⟨3, 3⟩, ⟨2, 2⟩] ∧
      ∃ far p, convex_hull exactInt [⟨1, 1⟩, ⟨3, 3⟩, ⟨2, 2⟩] = [far, p] ∧
        p ∈ ([⟨1, 1⟩, ⟨3, 3⟩, ⟨2, 2⟩] : List Point) ∧
        (∀ q ∈ ([⟨1, 1⟩, ⟨3, 3⟩, ⟨2, 2⟩] : List Point),
          p.y < q.y ∨ (p.y = q.y ∧ p.x ≤ q.x)) ∧
        far ∈ ([⟨1, 1⟩, ⟨3, 3⟩, ⟨2, 2⟩] : List Point) ∧
        ∀ q ∈ ([⟨1, 1⟩, ⟨3, 3⟩, ⟨2, 2⟩] : List Point), dist2 p q ≤ dist2 p far :=
  ⟨by decide, ⟨1, -1, 0, Or.inl (by decide), by decide⟩,
    all_collinear_output _ (by decide) ⟨1, -1, 0, Or.inl (by decide), by decide⟩⟩

/-! ## The stack invariant for every array and every arithmetic -/

theorem turnsLeft_tail {w : Int → Int} {t : Point} {S : List Point}
    (h : TurnsLeft w (t :: S)) : TurnsLeft w S := by
  match S, h with
  | [], _ => trivial
  | [_], _ => trivial
  | _ :: _ :: _, h => exact h.2

theorem turnsLeft_suffix {w : Int → Int} {R S : List Point} (hs : R <:+ S)
    (h : TurnsLeft w S) : TurnsLeft w R := by
  obtain ⟨pre, rfl⟩ := hs
  induction pre with
  | nil => exact h
  | cons x pre ih => exact ih (turnsLeft_tail h)

/-- The step "pop while the turn is not to the left, then push" keeps the invariant. -/
theorem scan_step_turnsLeft (w : Int → Int) (stk : List Point) (p : Point)
    (h : TurnsLeft w stk) : TurnsLeft w (scan_step w stk p) := by
  unfold scan_step
  have hsuf := pop_loop_suffix w p stk
  have hexit := pop_loop_exit w p stk
  generalize pop_loop w p stk = R at hsuf hexit
  have hR := turnsLeft_suffix hsuf h
  match R, hexit, hR with
  | [], _, _ => trivial
  | [_], _, _ => trivial
  | t :: n :: rest, hexit, hR => exact ⟨hexit t n rest rfl, hR⟩

theorem scan_fold_turnsLeft (w : Int → Int) (s : List Point) :
    ∀ stk : List Point, TurnsLeft w stk → TurnsLeft w (s.foldl (scan_step w) stk) := by
  induction s with
  | nil => intro stk h; exact h
  | cons a s ih => intro stk h; exact ih _ (scan_step_turnsLeft w stk a h)

theorem turnsLeft_getD {w : Int → Int} {e : List Point} (h : TurnsLeft w e) (i : Nat)
    (hi : i + 2 < e.length) :
    0 < get_direction w (e.getD (i + 2) default) (e.getD (i + 1) default)
      (e.getD i default) := by
  induction e generalizing i with
  | nil => simp at hi
  | cons t e ih =>
    match e, h, hi, ih with
    | [], _, hi, _ => simp at hi
    | [_], _, hi, _ => simp at hi
    | n :: m :: rest, h, hi, ih =>
      cases i with
      | zero => exact h.1
      | succ i =>
        have := ih h.2 i (by simpa using hi)
        simpa using this

/-! ## The stack operations with checks -/

theorem get_next_to_top_cons_cons (top next : Point) (rest : List Point) :
    get_next_to_top (top :: next :: rest) = some (next, top :: next :: rest) := rfl

theorem get_next_to_top_isSome (stk : List Point) :
    (get_next_to_top stk).isSome = true ↔ 2 ≤ stk.length := by
  match stk with
  | [] => simp [get_next_to_top, stack_top]
  | [_] => simp [get_next_to_top, stack_top, stack_pop]
  | _ :: _ :: _ => simp [get_next_to_top_cons_cons]

/-- With more fuel than the stack holds points the checked inner loop ends, meets no empty
stack and returns what `pop_loop` returns. -/
theorem pop_loop_checked_eq (w : Int → Int) (p : Point) :
    ∀ (fuel : Nat) (stk : List Point), stk.length < fuel →
      pop_loop_checked w p fuel stk = some (pop_loop w p stk) := by
  intro fuel
  induction fuel with
  | zero => intro stk h; omega
  | succ fuel ih =>
    intro stk h
    match stk with
    | [] => simp [pop_loop_checked, pop_loop_nil]
    | [t] => simp [pop_loop_checked, pop_loop_single]
    | t :: n :: rest =>
      rw [pop_loop_cons_cons]
      unfold pop_loop_checked
      rw [if_pos (by simp), get_next_to_top_cons_cons]
      simp only [stack_top, stack_pop]
      split
      · exact ih (n :: rest) (by simp at h ⊢; omega)
      · rfl

theorem print_loop_eq (stk : List Point) : print_loop stk = stk := by
  induction stk with
  | nil => rfl
  | cons t stk ih => unfold print_loop; rw [ih]

theorem scan_checked_fold (w : Int → Int) (points : List Point) (k : Nat)
    (hk : k ≤ points.length) :
    (List.range k).foldl (scan_step_checked w points) (some []) =
      some ((points.take k).foldl (scan_step w) []) := by
  induction k with
  | zero => rfl
  | succ k ih =>
    have hlt : k < points.length := by omega
    rw [List.range_succ, List.foldl_append, ih (by omega)]
    simp only [List.foldl_cons, List.foldl_nil]
    rw [List.take_succ, List.foldl_append]
    unfold scan_step_checked
    rw [List.getElem?_eq_getElem hlt]
    simp only [Option.toList_some, List.foldl_cons, List.foldl_nil]
    rw [pop_loop_checked_eq w _ _ _ (Nat.lt_succ_self _)]
    rfl

theorem scan_checked_eq (w : Int → Int) (points : List Point) :
    scan_checked w points = some (points.foldl (scan_step w) []) := by
  unfold scan_checked
  rw [scan_checked_fold w points points.length (le_refl _), List.take_length]

theorem bottom_left_checked_fold (points : List Point) (k : Nat) (hk : k ≤ points.length)
    (hne : points ≠ []) :
    (List.range k).foldl (bottom_left_step_checked points) (some 0) =
      some ((List.range k).foldl (bottom_left_step points) 0) := by
  induction k with
  | zero => rfl
  | succ k ih =>
    have hlt : k < points.length := by omega
    have hpos : 0 < points.length := List.length_pos.mpr hne
    rw [List.range_succ, List.foldl_append, List.foldl_append, ih (by omega)]
    simp only [List.foldl_cons, List.foldl_nil]
    have hb : (List.range k).foldl (bottom_left_step points) 0 < points.length := by
      rcases (bottom_left_fold points k).1 with h | h
      · rw [h]; exact hpos
      · omega
    generalize (List.range k).foldl (bottom_left_step points) 0 = b at hb
    simp only [bottom_left_step_checked, bottom_left_step, List.getElem?_eq_getElem hlt,
      List.getElem?_eq_getElem hb, List.getD_eq_getElem _ _ hlt, List.getD_eq_getElem _ _ hb]

theorem find_bottom_left_checked_eq (points : List Point) (hne : points ≠ []) :
    find_bottom_left_checked points = some (find_bottom_left points) :=
  bottom_left_checked_fold points points.length (le_refl _) hne

theorem swap_checked_eq (points : List Point) (b : Nat) (hb : b < points.length) :
    swap_checked points b = some (swap_to_front points b) := by
  have hpos : 0 < points.length := by omega
  unfold swap_checked swap_to_front
  rw [List.getElem?_eq_getElem hb, List.getElem?_eq_getElem hpos,
    List.getD_eq_getElem _ _ hb, List.getD_eq_getElem _ _ hpos]

/-- On an input of at least one point the run with checked accesses meets no access out of
bounds and no empty stack, and prints what `convex_hull` prints. -/
theorem convex_hull_checked_eq (w : Int → Int) (pts : List Point) (hne : pts ≠ []) :
    convex_hull_checked w pts = some (convex_hull w pts) := by
  have hb := find_bottom_left_lt pts hne
  obtain ⟨rest, h1, _⟩ := swap_to_front_eq pts _ hb
  unfold convex_hull_checked
  rw [find_bottom_left_checked_eq pts hne]
  simp only
  rw [swap_checked_eq pts _ hb]
  simp only
  have h0 : (swap_to_front pts (find_bottom_left pts))[0]? =
      some ((swap_to_front pts (find_bottom_left pts)).getD 0 default) := by
    rw [h1]; simp
  rw [h0]
  simp only
  rw [scan_checked_eq]
  simp only [print_loop_eq]
  rfl

/-! ## The scan as the specification words it -/

theorem spec_pop_while_eq (w : Int → Int) (c : Point) (stk : List Point) :
    spec_pop_while w c stk = pop_loop w c stk := by
  induction stk with
  | nil => rfl
  | cons t stk ih =>
    cases stk with
    | nil => rfl
    | cons n rest =>
      rw [pop_loop_cons_cons]
      unfold spec_pop_while
      rw [ih]

theorem spec_scan_eq (w : Int → Int) (p0 p1 : Point) (others : List Point) :
    spec_scan w (p0 :: p1 :: others) =
      some ((p0 :: p1 :: others).foldl (scan_step w) []) := by
  unfold spec_scan
  have hf : (fun stk current => current :: spec_pop_while w current stk) = scan_step w := by
    funext stk current
    unfold scan_step
    rw [spec_pop_while_eq]
  rw [hf]
  rfl

/-! ## The behaviour of the steps of `convex_hull` -/

/-- Claim C11 (hull stack invariant): for every array `points`, sorted or not, every
arithmetic and every number `k` of iterations of the scan loop, every three consecutive
points `a, b, c` of the stack taken from bottom to top satisfy `get_direction(a, b, c) > 0`;
and the step "pop while the turn is not to the left, then push" keeps this invariant. -/
theorem hull_stack_invariant (w : Int → Int) (points : List Point) (k : Nat) :
    (∀ i, i + 2 < (((points.take k).foldl (scan_step w) []).reverse).length →
      0 < get_direction w
        ((((points.take k).foldl (scan_step w) []).reverse).getD i default)
        ((((points.take k).foldl (scan_step w) []).reverse).getD (i + 1) default)
        ((((points.take k).foldl (scan_step w) []).reverse).getD (i + 2) default)) ∧
    (∀ (stk : List Point) (p : Point), TurnsLeft w stk → TurnsLeft w (scan_step w stk p)) := by
  refine ⟨?_, fun stk p h => scan_step_turnsLeft w stk p h⟩
  have hT : TurnsLeft w ((points.take k).foldl (scan_step w) []) :=
    scan_fold_turnsLeft w _ [] trivial
  generalize (points.take k).foldl (scan_step w) [] = e at hT
  intro i hi
  rw [List.length_reverse] at hi
  rw [reverse_getD e i (by omega), reverse_getD e (i + 1) (by omega),
    reverse_getD e (i + 2) hi]
  have := turnsLeft_getD hT (e.length - 1 - (i + 2)) (by omega)
  have e1 : e.length - 1 - (i + 2) + 2 = e.length - 1 - i := by omega
  have e2 : e.length - 1 - (i + 2) + 1 = e.length - 1 - (i + 1) := by omega
  rw [e1, e2] at this
  exact this

/-- The stack invariant after each of the ten iterations on the array of `main` as it is
given, which is not sorted: the stack after six iterations. -/
theorem hull_stack_invariant_witness :
    0 + 2 < (((main_points.take 6).foldl (scan_step exactInt) []).reverse).length ∧
      0 < get_direction exactInt
        ((((main_points.take 6).foldl (scan_step exactInt) []).reverse).getD 0 default)
        ((((main_points.take 6).foldl (scan_step exactInt) []).reverse).getD (0 + 1) default)
        ((((main_points.take 6).foldl (scan_step exactInt) []).reverse).getD (0 + 2) default) :=
  ⟨by decide, (hull_stack_invariant exactInt main_points 6).1 0 (by decide)⟩

/-- Claim C12 (the comparator is a strict weak ordering): for every pivot `p1`, on the
points that are not before `p1` in the order of the pivot selection, `Compare(p1)` in exact
arithmetic is irreflexive, asymmetric and transitive, its incomparability relation is
transitive, and two incomparable points are equal. -/
theorem compare_strict_weak_order (p1 : Point) :
    (∀ a, lexLe p1 a → Compare exactInt p1 a a = false) ∧
    (∀ a b, lexLe p1 a → lexLe p1 b →
      Compare exactInt p1 a b = true → Compare exactInt p1 b a = false) ∧
    (∀ a b c, lexLe p1 a → lexLe p1 b → lexLe p1 c →
      Compare exactInt p1 a b = true → Compare exactInt p1 b c = true →
      Compare exactInt p1 a c = true) ∧
    (∀ a b c, lexLe p1 a → lexLe p1 b → lexLe p1 c →
      (Compare exactInt p1 a b = false ∧ Compare exactInt p1 b a = false) →
      (Compare exactInt p1 b c = false ∧ Compare exactInt p1 c b = false) →
      (Compare exactInt p1 a c = false ∧ Compare exactInt p1 c a = false)) ∧
    (∀ a b, lexLe p1 a → lexLe p1 b →
      Compare exactInt p1 a b = false → Compare exactInt p1 b a = false → a = b) := by
  have hfalse : ∀ a b, Compare exactInt p1 a b = false ↔ ¬ before p1 a b := by
    intro a b
    rw [← compare_exact]
    simp
  have heq : ∀ a b, lexLe p1 a → lexLe p1 b →
      Compare exactInt p1 a b = false → Compare exactInt p1 b a = false → a = b := by
    intro a b ha hb h1 h2
    rcases before_total ha hb with h | h | h
    · exact absurd h ((hfalse a b).mp h1)
    · exact h
    · exact absurd h ((hfalse b a).mp h2)
  refine ⟨?_, ?_, ?_, ?_, heq⟩
  · intro a _
    exact (hfalse a a).mpr (before_irrefl p1 a)
  · intro a b _ _ h
    exact (hfalse b a).mpr (fun h2 => before_asymm ((compare_exact p1 a b).mp h) h2)
  · intro a b c ha hb hc h1 h2
    exact (compare_exact p1 a c).mpr
      (before_trans ha hb hc ((compare_exact p1 a b).mp h1) ((compare_exact p1 b c).mp h2))
  · intro a b c ha hb hc h1 h2
    have hab := heq a b ha hb h1.1 h1.2
    have hbc := heq b c hb hc h2.1 h2.2
    subst hab; subst hbc
    exact h1

/-- The comparator properties at the pivot `(0,0)` and points of the input of `main`. -/
theorem compare_strict_weak_order_witness :
    Compare exactInt ⟨0, 0⟩ ⟨4, 1⟩ ⟨4, 1⟩ = false ∧
      Compare exactInt ⟨0, 0⟩ ⟨1, 1⟩ ⟨4, 1⟩ = false ∧
      Compare exactInt ⟨0, 0⟩ ⟨4, 1⟩ ⟨2, 2⟩ = true :=
  ⟨(compare_strict_weak_order ⟨0, 0⟩).1 ⟨4, 1⟩ (by decide),
    (compare_strict_weak_order ⟨0, 0⟩).2.1 ⟨4, 1⟩ ⟨1, 1⟩ (by decide) (by decide) (by decide),
    (compare_strict_weak_order ⟨0, 0⟩).2.2.1 ⟨4, 1⟩ ⟨1, 1⟩ ⟨2, 2⟩ (by decide) (by decide)
      (by decide) (by decide) (by decide)⟩

theorem sorted_points_length (w : Int → Int) (pts : List Point) :
    (sorted_points w pts).length = pts.length := by
  by_cases hne : pts = []
  · rw [hne]; rfl
  · obtain ⟨p, rest, h1, h2, _, _⟩ := sorted_points_eq w pts hne
    rw [h1, ← h2.length_eq, List.length_cons, List.length_cons,
      (std_sort_perm _ rest).length_eq]

/-- Claim C13 (angular order after the sort): for every input of at least one point, in
exact arithmetic, after the pivot selection and the sort, for all indices `1 ≤ i < j < n`
the cross product `get_direction(points[0], points[i], points[j])` is `≥ 0`, and when it is
`0` the squared distance of `points[i]` from `points[0]` is at most that of `points[j]`. -/
theorem angular_order (pts : List Point) (_hn : 1 ≤ pts.length) (i j : Nat) (hi : 1 ≤ i)
    (hij : i < j) (hj : j < pts.length) :
    0 ≤ get_direction exactInt ((sorted_points exactInt pts).getD 0 default)
        ((sorted_points exactInt pts).getD i default)
        ((sorted_points exactInt pts).getD j default) ∧
      (get_direction exactInt ((sorted_points exactInt pts).getD 0 default)
          ((sorted_points exactInt pts).getD i default)
          ((sorted_points exactInt pts).getD j default) = 0 →
        dist2 ((sorted_points exactInt pts).getD 0 default)
            ((sorted_points exactInt pts).getD i default) ≤
          dist2 ((sorted_points exactInt pts).getD 0 default)
            ((sorted_points exactInt pts).getD j default)) := by
  have hne : pts ≠ [] := by
    intro h; rw [h] at hj; simp at hj
  obtain ⟨p, rest, h1, h2, h3, _⟩ := sorted_points_eq exactInt pts hne
  have hrest : ∀ q ∈ rest, lexLe p q := fun q hq =>
    h3 q (h2.subset (List.mem_cons_of_mem _ hq))
  have hsorted := std_sort_sorted p rest hrest
  have hlen : (std_sort (Compare exactInt p) rest).length + 1 = pts.length := by
    rw [(std_sort_perm _ rest).length_eq, ← h2.length_eq]; rfl
  rw [h1]
  generalize std_sort (Compare exactInt p) rest = s at hsorted hlen
  obtain ⟨i, rfl⟩ : ∃ i2, i = i2 + 1 := ⟨i - 1, by omega⟩
  obtain ⟨j, rfl⟩ : ∃ j2, j = j2 + 1 := ⟨j - 1, by omega⟩
  simp only [List.getD_cons_zero, List.getD_cons_succ]
  have hi2 : i < s.length := by omega
  have hj2 : j < s.length := by omega
  rw [List.getD_eq_getElem s default hi2, List.getD_eq_getElem s default hj2,
    get_direction_exact]
  have hb : beforeEq p s[i] s[j] :=
    List.pairwise_iff_getElem.mp hsorted i j hi2 hj2 (by omega)
  exact ⟨beforeEq_cross hb, fun h0 => beforeEq_dist hb h0⟩

/-- The angular order at the input of `main`, for the indices `2` and `3` of the sorted
array, which hold `(4,2)` and `(1,1)`. -/
theorem angular_order_witness :
    1 ≤ main_points.length ∧ 1 ≤ 2 ∧ 2 < 3 ∧ 3 < main_points.length ∧
      (0 ≤ get_direction exactInt ((sorted_points exactInt main_points).getD 0 default)
          ((sorted_points exactInt main_points).getD 2 default)
          ((sorted_points exactInt main_points).getD 3 default) ∧
        (get_direction exactInt ((sorted_points exactInt main_points).getD 0 default)
            ((sorted_points exactInt main_points).getD 2 default)
            ((sorted_points exactInt main_points).getD 3 default) = 0 →
          dist2 ((sorted_points exactInt main_points).getD 0 default)
              ((sorted_points exactInt main_points).getD 2 default) ≤
            dist2 ((sorted_points exactInt main_points).getD 0 default)
              ((sorted_points exactInt main_points).getD 3 default))) :=
  ⟨by decide, by decide, by decide, by decide,
    angular_order main_points (by decide) 2 3 (by decide) (by decide) (by decide)⟩

theorem swap_to_front_getD (pts : List Point) (b : Nat) (hb : b < pts.length) :
    (swap_to_front pts b).getD 0 default = pts.getD b default ∧
      (swap_to_front pts b).getD b default = pts.getD 0 default ∧
      ∀ i, i ≠ 0 → i ≠ b → (swap_to_front pts b).getD i default = pts.getD i default := by
  have hpos : 0 < pts.length := by omega
  unfold swap_to_front
  simp only [List.getD_eq_getElem?_getD, List.getElem?_set]
  refine ⟨?_, ?_, ?_⟩
  · simp [hpos]
  · by_cases h0 : b = 0
    · subst h0; simp [hpos]
    · have : ¬ 0 = b := fun h => h0 h.symm
      simp [this, hb]
  · intro i hi0 hib
    have h1 : ¬ 0 = i := fun h => hi0 h.symm
    have h2 : ¬ b = i := fun h => hib h.symm
    simp [h1, h2]

/-- Claim C14 (pivot selection): for every input of at least one point, after the selection
loop and the swap, `points[0]` has the smallest `y` of all input points and, among the points
with that `y`, the smallest `x`; the array is a rearrangement of the input in which only the
positions `0` and `bottom_left_index` are exchanged. -/
theorem pivot_selection (pts : List Point) (hn : 1 ≤ pts.length) :
    find_bottom_left pts < pts.length ∧
    (∀ q ∈ pts,
      ((swap_to_front pts (find_bottom_left pts)).getD 0 default).y ≤ q.y ∧
      (q.y = ((swap_to_front pts (find_bottom_left pts)).getD 0 default).y →
        ((swap_to_front pts (find_bottom_left pts)).getD 0 default).x ≤ q.x)) ∧
    (swap_to_front pts (find_bottom_left pts)).Perm pts ∧
    (swap_to_front pts (find_bottom_left pts)).getD 0 default =
      pts.getD (find_bottom_left pts) default ∧
    (swap_to_front pts (find_bottom_left pts)).getD (find_bottom_left pts) default =
      pts.getD 0 default ∧
    (∀ i, i ≠ 0 → i ≠ find_bottom_left pts →
      (swap_to_front pts (find_bottom_left pts)).getD i default = pts.getD i default) := by
  have hne : pts ≠ [] := by
    intro h; rw [h] at hn; simp at hn
  have hb := find_bottom_left_lt pts hne
  obtain ⟨g0, gb, gi⟩ := swap_to_front_getD pts _ hb
  obtain ⟨rest, h1, h2⟩ := swap_to_front_eq pts _ hb
  refine ⟨hb, ?_, by rw [h1]; exact h2, g0, gb, gi⟩
  intro q hq
  rw [g0]
  have := find_bottom_left_min pts q hq
  unfold lexLe at this
  omega

/-- The pivot selection at the input of `main`: index `4` holds the pivot `(0,0)`. -/
theorem pivot_selection_witness :
    1 ≤ main_points.length ∧ find_bottom_left main_points = 4 ∧
      (swap_to_front main_points (find_bottom_left main_points)).getD 0 default = ⟨0, 0⟩ ∧
      (swap_to_front main_points (find_bottom_left main_points)).Perm main_points :=
  ⟨by decide, by decide, by decide,
    (pivot_selection main_points (by decide)).2.2.1⟩

/-- Claim C15 (scan formulation equivalence): for every array of at least two points, sorted
or not, and every arithmetic, the single loop of the code over `i = 0 .. n-1` yields the same
final stack as the procedure of the specification that first pushes `points[0]` and
`points[1]` and then runs the pop-then-push step for `i = 2 .. n-1`. -/
theorem scan_equivalence (w : Int → Int) (points : List Point) (hn : 2 ≤ points.length) :
    spec_scan w points = some (points.foldl (scan_step w) []) := by
  match points, hn with
  | [], hn => simp at hn
  | [_], hn => simp at hn
  | p0 :: p1 :: others, _ => exact spec_scan_eq w p0 p1 others

/-- The equivalence of the two scans at the sorted array of the input of `main`, where the
code's loop yields what `convex_hull` prints. -/
theorem scan_equivalence_witness :
    2 ≤ (sorted_points exactInt main_points).length ∧
      spec_scan exactInt (sorted_points exactInt main_points) =
        some ((sorted_points exactInt main_points).foldl (scan_step exactInt) []) :=
  ⟨by decide, scan_equivalence exactInt (sorted_points exactInt main_points) (by decide)⟩

theorem scan_fold_head (w : Int → Int) (s : List Point) :
    ∀ S : List Point, S ≠ [] → s ≠ [] →
      2 ≤ (s.foldl (scan_step w) S).length ∧ (s.foldl (scan_step w) S).head? = s.getLast? := by
  induction s with
  | nil => intro S _ h; exact absurd rfl h
  | cons a s ih =>
    intro S hS _
    cases s with
    | nil =>
      have hne := pop_loop_ne_nil w a S hS
      simp only [List.foldl_cons, List.foldl_nil, scan_step, List.length_cons,
        List.head?_cons, List.getLast?_singleton, and_true]
      have := List.length_pos.mpr hne
      omega
    | cons b s =>
      rw [List.foldl_cons, List.getLast?_cons_cons]
      exact ih (scan_step w S a) (by unfold scan_step; exact List.cons_ne_nil _ _)
        (List.cons_ne_nil _ _)

/-- Claim C16 (emission order): for every input of at least two points, and every
arithmetic, `convex_hull` prints at least two points, the first point printed is the last
point `points[n-1]` of the sorted array and the last point printed is the pivot `points[0]`;
the print loop prints the final stack from top to bottom. -/
theorem emission_order (w : Int → Int) (pts : List Point) (hn : 2 ≤ pts.length) :
    2 ≤ (convex_hull w pts).length ∧
    (convex_hull w pts).head? = some ((sorted_points w pts).getD (pts.length - 1) default) ∧
    (convex_hull w pts).getLast? = some ((sorted_points w pts).getD 0 default) ∧
    print_loop ((sorted_points w pts).foldl (scan_step w) []) = convex_hull w pts := by
  have hne : pts ≠ [] := by
    intro h; rw [h] at hn; simp at hn
  have hlen := sorted_points_length w pts
  obtain ⟨p, rest, h1, _, _, _⟩ := sorted_points_eq w pts hne
  have hc : convex_hull w pts = (std_sort (Compare w p) rest).foldl (scan_step w) [p] := by
    unfold convex_hull; rw [h1]; rfl
  rw [print_loop_eq]
  rw [h1] at hlen ⊢
  rw [hc]
  generalize std_sort (Compare w p) rest = s at hlen
  have hs : s ≠ [] := by
    intro h; rw [h] at hlen; simp at hlen; omega
  obtain ⟨g1, g2⟩ := scan_fold_head w s [p] (List.cons_ne_nil _ _) hs
  refine ⟨g1, ?_, ?_, rfl⟩
  · rw [g2, ← hlen]
    have : (p :: s).getLast? = s.getLast? := by
      cases s with
      | nil => exact absurd rfl hs
      | cons b s => rw [List.getLast?_cons_cons]
    rw [← this, List.getLast?_eq_getElem?]
    simp
  · rw [scan_fold_getLast w s [p] (List.cons_ne_nil _ _)]
    rfl

/-- The emission order at the input of `main`. -/
theorem emission_order_witness :
    2 ≤ main_points.length ∧
      (convex_hull exactInt main_points).head? = some ⟨0, 3⟩ ∧
      (sorted_points exactInt main_points).getD (main_points.length - 1) default = ⟨0, 3⟩ ∧
      2 ≤ (convex_hull exactInt main_points).length :=
  ⟨by decide, by decide, by decide, (emission_order exactInt main_points (by decide)).1⟩

/-- Claim C17 (no empty-stack or out-of-bounds access): for every input of at least one
point, and every arithmetic, the run of `convex_hull` in which every array access
`points[i]`, every `top()` and `pop()` and every call of `get_next_to_top` is checked meets
no failing access and prints what `convex_hull` prints; `get_next_to_top` has a result
exactly on stacks of at least two points; and the inner loop ends within one evaluation of
its condition more than the stack holds points. -/
theorem no_bad_access (w : Int → Int) (pts : List Point) (hn : 1 ≤ pts.length) :
    convex_hull_checked w pts = some (convex_hull w pts) ∧
    (∀ stk : List Point, (get_next_to_top stk).isSome = true ↔ 2 ≤ stk.length) ∧
    (∀ (p : Point) (stk : List Point),
      pop_loop_checked w p (stk.length + 1) stk = some (pop_loop w p stk)) := by
  have hne : pts ≠ [] := by
    intro h; rw [h] at hn; simp at hn
  exact ⟨convex_hull_checked_eq w pts hne, get_next_to_top_isSome,
    fun p stk => pop_loop_checked_eq w p _ stk (Nat.lt_succ_self _)⟩

/-- The checked run on inputs of one and of two points. -/
theorem no_bad_access_witness :
    1 ≤ ([⟨3, 4⟩] : List Point).length ∧
      convex_hull_checked wrap32 [⟨3, 4⟩] = some [⟨3, 4⟩] ∧
      (convex_hull_checked wrap32 [⟨3, 4⟩] = some (convex_hull wrap32 [⟨3, 4⟩])) :=
  ⟨by decide, by decide, (no_bad_access wrap32 [⟨3, 4⟩] (by decide)).1⟩

theorem wrap32_of_fits (z : Int) (h : fits32 z) : wrap32 z = z := by
  unfold fits32 at h
  unfold wrap32
  omega

theorem mul_bound (a b : Int) (ha : -32766 ≤ a ∧ a ≤ 32766) (hb : -32766 ≤ b ∧ b ≤ 32766) :
    -1073610756 ≤ a * b ∧ a * b ≤ 1073610756 := by
  have h1 : 0 ≤ (32766 - a) * (32766 - b) := mul_nonneg (by omega) (by omega)
  have h2 : 0 ≤ (32766 + a) * (32766 + b) := mul_nonneg (by omega) (by omega)
  have h3 : 0 ≤ (32766 - a) * (32766 + b) := mul_nonneg (by omega) (by omega)
  have h4 : 0 ≤ (32766 + a) * (32766 - b) := mul_nonneg (by omega) (by omega)
  constructor <;> nlinarith

/-- Claim C18 (no-overflow bound): if every coordinate of `p1`, `p2`, `p3` has absolute value
at most `16383`, every intermediate value that `Compare::operator()` and `get_direction`
compute (coordinate differences, products, the cross product, both squared distances) lies
in the signed 32-bit range, so the 32-bit results equal the exact results. -/
theorem no_overflow (p1 p2 p3 : Point)
    (h1 : -16383 ≤ p1.x ∧ p1.x ≤ 16383 ∧ -16383 ≤ p1.y ∧ p1.y ≤ 16383)
    (h2 : -16383 ≤ p2.x ∧ p2.x ≤ 16383 ∧ -16383 ≤ p2.y ∧ p2.y ≤ 16383)
    (h3 : -16383 ≤ p3.x ∧ p3.x ≤ 16383 ∧ -16383 ≤ p3.y ∧ p3.y ≤ 16383) :
    (∀ v ∈ direction_values p1 p2 p3, fits32 v) ∧
    (∀ v ∈ compare_values p1 p2 p3, fits32 v) ∧
    get_direction wrap32 p1 p2 p3 = get_direction exactInt p1 p2 p3 ∧
    Compare wrap32 p1 p2 p3 = Compare exactInt p1 p2 p3 := by
  have d2x : -32766 ≤ p2.x - p1.x ∧ p2.x - p1.x ≤ 32766 := by omega
  have d2y : -32766 ≤ p2.y - p1.y ∧ p2.y - p1.y ≤ 32766 := by omega
  have d3x : -32766 ≤ p3.x - p1.x ∧ p3.x - p1.x ≤ 32766 := by omega
  have d3y : -32766 ≤ p3.y - p1.y ∧ p3.y - p1.y ≤ 32766 := by omega
  have m1 := mul_bound _ _ d2x d3y
  have m2 := mul_bound _ _ d2y d3x
  have m3 := mul_bound _ _ d2x d2x
  have m4 := mul_bound _ _ d2y d2y
  have m5 := mul_bound _ _ d3x d3x
  have m6 := mul_bound _ _ d3y d3y
  have f2x : fits32 (p2.x - p1.x) := by unfold fits32; omega
  have f2y : fits32 (p2.y - p1.y) := by unfold fits32; omega
  have f3x : fits32 (p3.x - p1.x) := by unfold fits32; omega
  have f3y : fits32 (p3.y - p1.y) := by unfold fits32; omega
  have fm1 : fits32 ((p2.x - p1.x) * (p3.y - p1.y)) := by unfold fits32; omega
  have fm2 : fits32 ((p2.y - p1.y) * (p3.x - p1.x)) := by unfold fits32; omega
  have fm3 : fits32 ((p2.x - p1.x) * (p2.x - p1.x)) := by unfold fits32; omega
  have fm4 : fits32 ((p2.y - p1.y) * (p2.y - p1.y)) := by unfold fits32; omega
  have fm5 : fits32 ((p3.x - p1.x) * (p3.x - p1.x)) := by unfold fits32; omega
  have fm6 : fits32 ((p3.y - p1.y) * (p3.y - p1.y)) := by unfold fits32; omega
  have fc : fits32 ((p2.x - p1.x) * (p3.y - p1.y) - (p2.y - p1.y) * (p3.x - p1.x)) := by
    unfold fits32; omega
  have fd2 : fits32 ((p2.x - p1.x) * (p2.x - p1.x) + (p2.y - p1.y) * (p2.y - p1.y)) := by
    unfold fits32; omega
  have fd3 : fits32 ((p3.x - p1.x) * (p3.x - p1.x) + (p3.y - p1.y) * (p3.y - p1.y)) := by
    unfold fits32; omega
  have hdir : ∀ v ∈ direction_values p1 p2 p3, fits32 v := by
    intro v hv
    simp only [direction_values, List.mem_cons, List.mem_singleton, List.not_mem_nil,
      or_false] at hv
    rcases hv with h | h | h | h | h | h | h <;> rw [h] <;> assumption
  refine ⟨hdir, ?_, ?_, ?_⟩
  · intro v hv
    unfold compare_values at hv
    rcases List.mem_append.mp hv with h | h
    · exact hdir v h
    · simp only [List.mem_cons, List.mem_singleton, List.not_mem_nil, or_false] at h
      rcases h with h | h | h | h | h | h <;> rw [h] <;> assumption
  · unfold get_direction exactInt
    rw [wrap32_of_fits _ f2x, wrap32_of_fits _ f2y, wrap32_of_fits _ f3x,
      wrap32_of_fits _ f3y, wrap32_of_fits _ fm1, wrap32_of_fits _ fm2,
      wrap32_of_fits _ fc]
  · unfold Compare exactInt
    simp only [wrap32_of_fits _ f2x, wrap32_of_fits _ f2y, wrap32_of_fits _ f3x,
      wrap32_of_fits _ f3y, wrap32_of_fits _ fm1, wrap32_of_fits _ fm2,
      wrap32_of_fits _ fc, wrap32_of_fits _ fm3, wrap32_of_fits _ fm4,
      wrap32_of_fits _ fm5, wrap32_of_fits _ fm6, wrap32_of_fits _ fd2,
      wrap32_of_fits _ fd3]

/-- The bound at the extreme coordinates `±16383`, where the cross product is
`2 * 32766 * 32766`. -/
theorem no_overflow_witness :
    (∀ v ∈ direction_values ⟨-16383, -16383⟩ ⟨16383, -16383⟩ ⟨-16383, 16383⟩, fits32 v) ∧
      (∀ v ∈ compare_values ⟨-16383, -16383⟩ ⟨16383, -16383⟩ ⟨-16383, 16383⟩, fits32 v) ∧
      get_direction wrap32 ⟨-16383, -16383⟩ ⟨16383, -16383⟩ ⟨-16383, 16383⟩ =
        get_direction exactInt ⟨-16383, -16383⟩ ⟨16383, -16383⟩ ⟨-16383, 16383⟩ ∧
      Compare wrap32 ⟨-16383, -16383⟩ ⟨16383, -16383⟩ ⟨-16383, 16383⟩ =
        Compare exactInt ⟨-16383, -16383⟩ ⟨16383, -16383⟩ ⟨-16383, 16383⟩ :=
  no_overflow ⟨-16383, -16383⟩ ⟨16383, -16383⟩ ⟨-16383, 16383⟩ (by decide) (by decide)
    (by decide)

/-- On the other three points of `overflow_points` the wrapped comparator still orders every
pair one way, so every sorting algorithm returns the array that `std_sort` returns. -/
theorem overflow_sort_any (l : List Point)
    (hperm : l.Perm [⟨1, 0⟩, ⟨46341, 0⟩, ⟨0, 1⟩])
    (hsorted : l.Pairwise (fun a b => Compare wrap32 ⟨0, 0⟩ b a = false)) :
    l = std_sort (Compare wrap32 ⟨0, 0⟩) [⟨1, 0⟩, ⟨46341, 0⟩, ⟨0, 1⟩] := by
  have hlen := hperm.length_eq
  match l, hlen with
  | [a, b, c], _ =>
    have ha : a ∈ ([⟨1, 0⟩, ⟨46341, 0⟩, ⟨0, 1⟩] : List Point) := hperm.subset (by simp)
    have hb : b ∈ ([⟨1, 0⟩, ⟨46341, 0⟩, ⟨0, 1⟩] : List Point) := hperm.subset (by simp)
    have hc : c ∈ ([⟨1, 0⟩, ⟨46341, 0⟩, ⟨0, 1⟩] : List Point) := hperm.subset (by simp)
    have key : ∀ a ∈ ([⟨1, 0⟩, ⟨46341, 0⟩, ⟨0, 1⟩] : List Point),
        ∀ b ∈ ([⟨1, 0⟩, ⟨46341, 0⟩, ⟨0, 1⟩] : List Point),
        ∀ c ∈ ([⟨1, 0⟩, ⟨46341, 0⟩, ⟨0, 1⟩] : List Point),
        [a, b, c].Perm [⟨1, 0⟩, ⟨46341, 0⟩, ⟨0, 1⟩] →
        (Compare wrap32 ⟨0, 0⟩ b a = false ∧ Compare wrap32 ⟨0, 0⟩ c a = false ∧
          Compare wrap32 ⟨0, 0⟩ c b = false) →
        [a, b, c] = std_sort (Compare wrap32 ⟨0, 0⟩) [⟨1, 0⟩, ⟨46341, 0⟩, ⟨0, 1⟩] := by
      decide
    apply key a ha b hb c hc hperm
    simp only [List.pairwise_cons, List.mem_cons, List.mem_singleton, List.not_mem_nil,
      or_false, forall_eq_or_imp, forall_eq, IsEmpty.forall_iff, implies_true,
      List.Pairwise.nil, and_true] at hsorted
    exact ⟨hsorted.1.1, hsorted.1.2, hsorted.2⟩

/-- Claim C19 (silent overflow beyond about 46,000): in 32-bit wrap-around arithmetic a
square `d * d` fits a signed 32-bit `int` for `|d| ≤ 46340` and does not for `|d| = 46341`;
and on the input `(0,0)`, `(1,0)`, `(46341,0)`, `(0,1)` the wrapped squared distance makes
`Compare` order the farther collinear point `(46341,0)` before the nearer `(1,0)`, so that
`convex_hull` omits the extreme point `(46341,0)` that exact arithmetic returns. -/
theorem silent_overflow :
    (∀ d : Int, -46340 ≤ d → d ≤ 46340 → fits32 (d * d) ∧ wrap32 (d * d) = d * d) ∧
    (¬ fits32 (46341 * 46341) ∧ ¬ fits32 ((-46341) * (-46341)) ∧
      wrap32 (46341 * 46341) = -2147479015) ∧
    (Compare wrap32 ⟨0, 0⟩ ⟨46341, 0⟩ ⟨1, 0⟩ = true ∧
      Compare exactInt ⟨0, 0⟩ ⟨46341, 0⟩ ⟨1, 0⟩ = false ∧
      Compare exactInt ⟨0, 0⟩ ⟨1, 0⟩ ⟨46341, 0⟩ = true) ∧
    (convex_hull wrap32 overflow_points = [⟨0, 1⟩, ⟨1, 0⟩, ⟨0, 0⟩] ∧
      (⟨46341, 0⟩ : Point) ∉ convex_hull wrap32 overflow_points ∧
      convex_hull exactInt overflow_points = [⟨0, 1⟩, ⟨46341, 0⟩, ⟨0, 0⟩] ∧
      (⟨46341, 0⟩ : Point) ∈ convex_hull exactInt overflow_points) := by
  refine ⟨?_, ⟨by decide, by decide, by decide⟩, ⟨by decide, by decide, by decide⟩,
    ⟨by decide, by decide, by decide, by decide⟩⟩
  intro d h1 h2
  have hf : fits32 (d * d) := by
    have h3 : 0 ≤ (46340 - d) * (46340 + d) := mul_nonneg (by omega) (by omega)
    have h4 : 0 ≤ d * d := mul_self_nonneg d
    unfold fits32
    constructor <;> nlinarith
  exact ⟨hf, wrap32_of_fits _ hf⟩

/-- Claim C20 (peek under top leaves the stack unchanged): for every stack of at least two
points `get_next_to_top` returns the second point from the top, `seq[len-2]` of the stack
seen as a sequence from bottom to top, and the stack after the call equals the stack before
the call. -/
theorem peek_under_top (stk : List Point) (h : 2 ≤ stk.length) :
    get_next_to_top stk = some (stk.reverse.getD (stk.length - 2) default, stk) := by
  match stk, h with
  | [], h => simp at h
  | [_], h => simp at h
  | top :: next :: rest, _ =>
    rw [get_next_to_top_cons_cons,
      reverse_getD _ _ (by simp only [List.length_cons]; omega)]
    simp

/-- The peek on a stack of three points, top `(1,1)`. -/
theorem peek_under_top_witness :
    2 ≤ ([⟨1, 1⟩, ⟨2, 2⟩, ⟨3, 3⟩] : List Point).length ∧
      get_next_to_top [⟨1, 1⟩, ⟨2, 2⟩, ⟨3, 3⟩] =
        some (([⟨1, 1⟩, ⟨2, 2⟩, ⟨3, 3⟩] : List Point).reverse.getD
          (([⟨1, 1⟩, ⟨2, 2⟩, ⟨3, 3⟩] : List Point).length - 2) default,
          [⟨1, 1⟩, ⟨2, 2⟩, ⟨3, 3⟩]) :=
  ⟨by decide, peek_under_top _ (by decide)⟩

end ConvexHull
